import Mathlib

/-!
# Verification of the `iter` stream-merge combinators (`iter_exact.go`)

Shallow embedding of the key-value stream combinators of
`erigon-lib/kv/iter/iter_exact.go`:

* base pair/triple sources (`KVsrc` / `KVSsrc`) implementing the pull
  contract `HasNext` / `Next` with a trailing latched error, instrumented
  with call and close counters;
* the composites `UnionKVIter` (deduplicating union with `x`-shadowing),
  `MergedKV` (non-deduplicating merge), `WrapKVSIter` / `WrapKVIter`
  (shape adapters) and `TransformKV2U64Iter`, translated method by method
  from the Go source;
* pure list-level merge functions (`unionList`, `mergeList`) used to
  characterise the iterator runs, plus the order theory of
  `bytesCompare` (Go's `bytes.Compare`).

Keys and values are byte strings, modelled as `List Nat`; Go errors are
modelled as `Option Nat` (a `Nat` error code, `none` = nil); the Go `int`
limit is modelled as `Int` (decrement-only, compared against zero).
-/

/-- Byte strings (Go `[]byte`), as lists of naturals. `nil` is `[]`. -/
abbrev Bytes := List Nat

/-- Go's `bytes.Compare`: lexicographic comparison of byte slices; a
proper prefix compares less than the longer slice. -/
def bytesCompare : Bytes → Bytes → Ordering
  | [], [] => .eq
  | [], _ :: _ => .lt
  | _ :: _, [] => .gt
  | a :: as, b :: bs =>
    if a < b then .lt
    else if b < a then .gt
    else bytesCompare as bs

/-- Strict byte-lexicographic order on keys. -/
def bLt (a b : Bytes) : Prop := bytesCompare a b = .lt

/-- Non-strict byte-lexicographic order on keys. -/
def bLe (a b : Bytes) : Prop := bytesCompare a b ≠ .gt

instance (a b : Bytes) : Decidable (bLt a b) := by unfold bLt; infer_instance
instance (a b : Bytes) : Decidable (bLe a b) := by unfold bLe; infer_instance

theorem bytesCompare_self : ∀ a : Bytes, bytesCompare a a = .eq
  | [] => rfl
  | _ :: as => by simp [bytesCompare, bytesCompare_self as]

theorem bytesCompare_eq_iff : ∀ {a b : Bytes}, bytesCompare a b = .eq ↔ a = b := by
  intro a
  induction a with
  | nil => intro b; cases b <;> simp [bytesCompare]
  | cons x as ih =>
    intro b
    cases b with
    | nil => simp [bytesCompare]
    | cons y bs =>
      simp only [bytesCompare]
      split_ifs with h1 h2
      · constructor
        · intro h; exact absurd h (by decide)
        · intro h; injection h with hx _; exact absurd hx (by omega)
      · constructor
        · intro h; exact absurd h (by decide)
        · intro h; injection h with hx _; exact absurd hx (by omega)
      · have hxy : x = y := by omega
        subst hxy
        rw [ih]
        constructor
        · intro h; rw [h]
        · intro h; injection h with hh ht

theorem bytesCompare_gt_iff : ∀ {a b : Bytes},
    bytesCompare a b = .gt ↔ bytesCompare b a = .lt := by
  intro a
  induction a with
  | nil => intro b; cases b <;> simp [bytesCompare]
  | cons x as ih =>
    intro b
    cases b with
    | nil => simp [bytesCompare]
    | cons y bs =>
      simp only [bytesCompare]
      split_ifs <;>
        first
          | omega
          | exact ih
          | simp

theorem bLt_trans : ∀ {a b c : Bytes}, bLt a b → bLt b c → bLt a c := by
  unfold bLt
  intro a
  induction a with
  | nil =>
    intro b c h1 h2
    cases b with
    | nil => exact h2
    | cons y bs =>
      cases c with
      | nil => simp [bytesCompare] at h2
      | cons z cs => simp [bytesCompare]
  | cons x as ih =>
    intro b c h1 h2
    cases b with
    | nil => simp [bytesCompare] at h1
    | cons y bs =>
      cases c with
      | nil => simp [bytesCompare] at h2
      | cons z cs =>
        simp only [bytesCompare] at h1 h2 ⊢
        split_ifs at h1 h2 ⊢ <;>
          first
            | rfl
            | omega
            | exact ih h1 h2

theorem bLt_irrefl (a : Bytes) : ¬ bLt a a := by
  unfold bLt; rw [bytesCompare_self]; simp

theorem bLt_asymm {a b : Bytes} (h : bLt a b) : ¬ bLt b a := by
  intro h2
  exact bLt_irrefl a (bLt_trans h h2)

theorem bLe_iff {a b : Bytes} : bLe a b ↔ bLt a b ∨ a = b := by
  unfold bLe bLt
  cases h : bytesCompare a b with
  | lt => simp
  | eq => simp [bytesCompare_eq_iff.mp h]
  | gt =>
    simp only [ne_eq, not_true_eq_false, false_iff]
    push_neg
    constructor
    · simp [h]
    · intro he; subst he; rw [bytesCompare_self] at h; exact absurd h (by simp)

theorem bLe_refl (a : Bytes) : bLe a a := bLe_iff.mpr (Or.inr rfl)

theorem bLe_of_bLt {a b : Bytes} (h : bLt a b) : bLe a b := bLe_iff.mpr (Or.inl h)

theorem bLt_of_not_bLe {a b : Bytes} (h : ¬ bLe a b) : bLt b a := by
  unfold bLe at h
  push_neg at h
  exact bytesCompare_gt_iff.mp h

theorem bLe_of_not_bLt {a b : Bytes} (h : ¬ bLt a b) : bLe b a := by
  unfold bLt at h
  cases hc : bytesCompare a b with
  | lt => exact absurd hc h
  | eq => exact bLe_iff.mpr (Or.inr (bytesCompare_eq_iff.mp hc).symm)
  | gt => exact bLe_of_bLt (bytesCompare_gt_iff.mp hc)

theorem bLt_of_bLt_of_bLe {a b c : Bytes} (h1 : bLt a b) (h2 : bLe b c) : bLt a c := by
  rcases bLe_iff.mp h2 with h | h
  · exact bLt_trans h1 h
  · exact h ▸ h1

theorem bLt_of_bLe_of_bLt {a b c : Bytes} (h1 : bLe a b) (h2 : bLt b c) : bLt a c := by
  rcases bLe_iff.mp h1 with h | h
  · exact bLt_trans h h2
  · exact h.symm ▸ h2

theorem bLe_trans {a b c : Bytes} (h1 : bLe a b) (h2 : bLe b c) : bLe a c := by
  rcases bLe_iff.mp h1 with h | h
  · exact bLe_of_bLt (bLt_of_bLt_of_bLe h h2)
  · exact h ▸ h2

/-! ## Base stream sources

A base pair stream (an implementation of the `iter.KV` interface handed to
the combinators by the storage engine): a list of pending (key, value)
items, followed — once the items are exhausted — by an optional latched
error that `Next` then returns on every call (the sticky-error base
contract of the spec). The model is instrumented: `calls` counts
`HasNext`/`Next` invocations on the source, `closed` counts `Close`
invocations, and `closable` records whether the source implements the
optional `Closer` capability (Go type assertion `.(Closer)`). -/

structure KVsrc where
  items : List (Bytes × Bytes)
  terr : Option Nat := none
  calls : Nat := 0
  closable : Bool := true
  closed : Nat := 0
deriving DecidableEq, Repr

/-- A base triple stream (`iter.KVS`): items are (key, value, step). -/
structure KVSsrc where
  items : List (Bytes × Bytes × Nat)
  terr : Option Nat := none
  calls : Nat := 0
  closable : Bool := true
  closed : Nat := 0
deriving DecidableEq, Repr

/-- Pure availability of a base pair source: an unread item exists or a
latched error is pending. -/
def KVsrc.hasNextB (s : KVsrc) : Bool := !s.items.isEmpty || s.terr.isSome

/-- `HasNext` on a base pair source (instrumented: bumps `calls`). -/
def KVsrc.HasNext (s : KVsrc) : Bool × KVsrc :=
  (s.hasNextB, { s with calls := s.calls + 1 })

/-- `Next` on a base pair source: deliver the next item, or — once items
are exhausted — deliver (and keep latching) the trailing error with
nil key/value. -/
def KVsrc.Next (s : KVsrc) : (Bytes × Bytes × Option Nat) × KVsrc :=
  match s.items with
  | (k, v) :: rest => ((k, v, none), { s with items := rest, calls := s.calls + 1 })
  | [] =>
    match s.terr with
    | some e => (([], [], some e), { s with calls := s.calls + 1 })
    | none => (([], [], none), { s with calls := s.calls + 1 })

def KVSsrc.hasNextB (s : KVSsrc) : Bool := !s.items.isEmpty || s.terr.isSome

/-- `HasNext` on a base triple source. -/
def KVSsrc.HasNext (s : KVSsrc) : Bool × KVSsrc :=
  (s.hasNextB, { s with calls := s.calls + 1 })

/-- `Next` on a base triple source. -/
def KVSsrc.Next (s : KVSsrc) : (Bytes × Bytes × Nat × Option Nat) × KVSsrc :=
  match s.items with
  | (k, v, st) :: rest => ((k, v, st, none), { s with items := rest, calls := s.calls + 1 })
  | [] =>
    match s.terr with
    | some e => (([], [], 0, some e), { s with calls := s.calls + 1 })
    | none => (([], [], 0, none), { s with calls := s.calls + 1 })

/-! ## UnionKVIter (`iter_exact.go` lines 87-173)

Merge two KV streams into one, in lexicographic order; the first stream
has higher priority when both return the same key. -/

structure UnionKVIter where
  x : KVsrc
  y : KVsrc
  xHasNext : Bool := false
  yHasNext : Bool := false
  xNextK : Bytes := []
  xNextV : Bytes := []
  yNextK : Bytes := []
  yNextV : Bytes := []
  limit : Int := 0
  err : Option Nat := none
deriving DecidableEq, Repr

/-- `UnionKVIter.advanceX`: prime the `x` lookahead buffer (no-op once an
error is latched). -/
def UnionKVIter.advanceX (m : UnionKVIter) : UnionKVIter :=
  if m.err.isSome then m
  else
    let (h, x1) := m.x.HasNext
    if h then
      let ((k, v, e), x2) := x1.Next
      { m with x := x2, xHasNext := h, xNextK := k, xNextV := v, err := e }
    else
      { m with x := x1, xHasNext := h }

/-- `UnionKVIter.advanceY`. -/
def UnionKVIter.advanceY (m : UnionKVIter) : UnionKVIter :=
  if m.err.isSome then m
  else
    let (h, y1) := m.y.HasNext
    if h then
      let ((k, v, e), y2) := y1.Next
      { m with y := y2, yHasNext := h, yNextK := k, yNextV := v, err := e }
    else
      { m with y := y1, yHasNext := h }

/-- `UnionKVIter.HasNext`:
`m.err != nil || (m.limit != 0 && m.xHasNext) || (m.limit != 0 && m.yHasNext)`. -/
def UnionKVIter.HasNext (m : UnionKVIter) : Bool :=
  m.err.isSome || ((m.limit != 0) && m.xHasNext) || ((m.limit != 0) && m.yHasNext)

/-- `UnionKVIter.Next`: return the latched error if any; else decrement
the limit and emit the smaller buffered key (on a tie, emit `x`'s pair
and advance both sides). The decrement `m.limit--` is modelled here on
unbounded integers — exact while the limit stays inside the 64-bit Go
`int` range; `UnionKVIter.NextW` below takes the same decrement with
the two's-complement wrap, exact at the range boundary. -/
def UnionKVIter.Next (m : UnionKVIter) : (Bytes × Bytes × Option Nat) × UnionKVIter :=
  if m.err.isSome then (([], [], m.err), m)
  else
    let m := { m with limit := m.limit - 1 }
    if m.xHasNext && m.yHasNext then
      match bytesCompare m.xNextK m.yNextK with
      | .lt => ((m.xNextK, m.xNextV, m.err), m.advanceX)
      | .eq => ((m.xNextK, m.xNextV, m.err), m.advanceX.advanceY)
      | .gt => ((m.yNextK, m.yNextV, m.err), m.advanceY)
    else if m.xHasNext then
      ((m.xNextK, m.xNextV, m.err), m.advanceX)
    else
      ((m.yNextK, m.yNextV, m.err), m.advanceY)

/-! ## WrapKVSIter (lines 175-217): lift a KV stream to KVS, step 0. -/

structure WrapKVSIter where
  y : KVsrc
  yHasNext : Bool := false
  yNextK : Bytes := []
  yNextV : Bytes := []
  err : Option Nat := none
deriving DecidableEq, Repr

/-- `WrapKVSIter.advance`. -/
def WrapKVSIter.advance (m : WrapKVSIter) : WrapKVSIter :=
  if m.err.isSome then m
  else
    let (h, y1) := m.y.HasNext
    if h then
      let ((k, v, e), y2) := y1.Next
      { m with y := y2, yHasNext := h, yNextK := k, yNextV := v, err := e }
    else
      { m with y := y1, yHasNext := h }

/-- `WrapKVSIter.HasNext`. -/
def WrapKVSIter.HasNext (m : WrapKVSIter) : Bool := m.err.isSome || m.yHasNext

/-- `WrapKVSIter.Next`: emit the buffered pair with step 0. -/
def WrapKVSIter.Next (m : WrapKVSIter) : (Bytes × Bytes × Nat × Option Nat) × WrapKVSIter :=
  if m.err.isSome then (([], [], 0, m.err), m)
  else
    ((m.yNextK, m.yNextV, 0, m.err), m.advance)

/-! ## WrapKVIter (lines 219-261): project a KVS stream to KV, dropping
the step. -/

structure WrapKVIter where
  x : KVSsrc
  xHasNext : Bool := false
  xNextK : Bytes := []
  xNextV : Bytes := []
  err : Option Nat := none
deriving DecidableEq, Repr

/-- `WrapKVIter.advance` (the step returned by the child is discarded). -/
def WrapKVIter.advance (m : WrapKVIter) : WrapKVIter :=
  if m.err.isSome then m
  else
    let (h, x1) := m.x.HasNext
    if h then
      let ((k, v, _st, e), x2) := x1.Next
      { m with x := x2, xHasNext := h, xNextK := k, xNextV := v, err := e }
    else
      { m with x := x1, xHasNext := h }

/-- `WrapKVIter.HasNext`. -/
def WrapKVIter.HasNext (m : WrapKVIter) : Bool := m.err.isSome || m.xHasNext

/-- `WrapKVIter.Next`. -/
def WrapKVIter.Next (m : WrapKVIter) : (Bytes × Bytes × Option Nat) × WrapKVIter :=
  if m.err.isSome then (([], [], m.err), m)
  else
    ((m.xNextK, m.xNextV, m.err), m.advance)

/-! ## MergedKV (lines 263-348)

Merge a KVS stream and a KV stream without shadowing: all input pairs
appear in the output; the first stream wins ties (`cmp <= 0` emits `x`),
and `y`'s pairs are lifted with step 0. -/

structure MergedKV where
  x : KVSsrc
  y : KVsrc
  xHasNext : Bool := false
  yHasNext : Bool := false
  xNextK : Bytes := []
  xNextV : Bytes := []
  yNextK : Bytes := []
  yNextV : Bytes := []
  xStep : Nat := 0
  limit : Int := 0
  err : Option Nat := none
deriving DecidableEq, Repr

/-- `MergedKV.advanceX`. -/
def MergedKV.advanceX (m : MergedKV) : MergedKV :=
  if m.err.isSome then m
  else
    let (h, x1) := m.x.HasNext
    if h then
      let ((k, v, st, e), x2) := x1.Next
      { m with x := x2, xHasNext := h, xNextK := k, xNextV := v, xStep := st, err := e }
    else
      { m with x := x1, xHasNext := h }

/-- `MergedKV.advanceY`. -/
def MergedKV.advanceY (m : MergedKV) : MergedKV :=
  if m.err.isSome then m
  else
    let (h, y1) := m.y.HasNext
    if h then
      let ((k, v, e), y2) := y1.Next
      { m with y := y2, yHasNext := h, yNextK := k, yNextV := v, err := e }
    else
      { m with y := y1, yHasNext := h }

/-- `MergedKV.HasNext`. -/
def MergedKV.HasNext (m : MergedKV) : Bool :=
  m.err.isSome || ((m.limit != 0) && m.xHasNext) || ((m.limit != 0) && m.yHasNext)

/-- `MergedKV.Next`: on `cmp <= 0` emit `x`'s triple and advance only
`x`; otherwise emit `y`'s pair with step 0 and advance only `y`. The
limit decrement is modelled on unbounded integers — exact inside the
64-bit Go `int` range; `MergedKV.NextW` below takes it with the
two's-complement wrap, exact at the range boundary. -/
def MergedKV.Next (m : MergedKV) : (Bytes × Bytes × Nat × Option Nat) × MergedKV :=
  if m.err.isSome then (([], [], 0, m.err), m)
  else
    let m := { m with limit := m.limit - 1 }
    if m.xHasNext && m.yHasNext then
      if bytesCompare m.xNextK m.yNextK ≠ Ordering.gt then
        ((m.xNextK, m.xNextV, m.xStep, m.err), m.advanceX)
      else
        ((m.yNextK, m.yNextV, 0, m.err), m.advanceY)
    else if m.xHasNext then
      ((m.xNextK, m.xNextV, m.xStep, m.err), m.advanceX)
    else
      ((m.yNextK, m.yNextV, 0, m.err), m.advanceY)

/-! ## Constructors (lines 98-112, 182-189, 226-233, 278-292)

The Go constructors return interface values (`KV` / `KVS`): either one of
the empty streams, one of the child streams unchanged, or a freshly
primed composite. The possible results are modelled as a sum. -/

inductive KVResult where
  | emptyKV
  | srcKV (s : KVsrc)
  | wrapKV (w : WrapKVIter)
  | unionKV (m : UnionKVIter)
deriving DecidableEq, Repr

inductive KVSResult where
  | emptyKVS
  | srcKVS (s : KVSsrc)
  | wrapKVS (w : WrapKVSIter)
  | merged (m : MergedKV)
deriving DecidableEq, Repr

/-- `UnionKV(x, y, limit)`: nil dispatch, then build the iterator and
prime both lookahead buffers. -/
def UnionKV (x y : Option KVsrc) (limit : Int) : KVResult :=
  match x, y with
  | none, none => .emptyKV
  | none, some ys => .srcKV ys
  | some xs, none => .srcKV xs
  | some xs, some ys =>
    .unionKV (({ x := xs, y := ys, limit := limit } : UnionKVIter).advanceX.advanceY)

/-- `WrapKVS(y)`. -/
def WrapKVS (y : Option KVsrc) : KVSResult :=
  match y with
  | none => .emptyKVS
  | some ys => .wrapKVS (({ y := ys } : WrapKVSIter).advance)

/-- `WrapKV(x)`. -/
def WrapKV (x : Option KVSsrc) : KVResult :=
  match x with
  | none => .emptyKV
  | some xs => .wrapKV (({ x := xs } : WrapKVIter).advance)

/-- `MergeKVS(x, y, limit)`. -/
def MergeKVS (x : Option KVSsrc) (y : Option KVsrc) (limit : Int) : KVSResult :=
  match x, y with
  | none, none => .emptyKVS
  | none, some ys => WrapKVS (some ys)
  | some xs, none => .srcKVS xs
  | some xs, some ys =>
    .merged (({ x := xs, y := ys, limit := limit } : MergedKV).advanceX.advanceY)

/-! ## TransformKV2U64Iter (lines 65-85)

Wraps a KV stream and a mapping to `uint64`. The struct has no error
field: a mapping failure is returned for that pull only. -/

structure TransformKV2U64Iter where
  it : KVsrc
  transform : Bytes → Bytes → Nat × Option Nat

/-- `TransformKV2U64Iter.HasNext`: delegates to the child. -/
def TransformKV2U64Iter.HasNext (m : TransformKV2U64Iter) :
    Bool × TransformKV2U64Iter :=
  let (h, it1) := m.it.HasNext
  (h, { m with it := it1 })

/-- `TransformKV2U64Iter.Next`: pull the child; on a child error return
`(0, err)`, otherwise return the result of the mapping (including any
mapping error). -/
def TransformKV2U64Iter.Next (m : TransformKV2U64Iter) :
    (Nat × Option Nat) × TransformKV2U64Iter :=
  let ((k, v, e), it1) := m.it.Next
  match e with
  | some er => ((0, some er), { m with it := it1 })
  | none => (m.transform k v, { m with it := it1 })

/-! ## Consuming runs

Fuel-driven drivers of the pull protocol: while `HasNext`, pull `Next`
and collect the emitted element. -/

/-- Drive a base pair source directly (what a consumer of the Go `KV`
interface does). -/
def KVsrc.run : Nat → KVsrc → List (Bytes × Bytes)
  | 0, _ => []
  | fuel + 1, s =>
    let (h, s1) := s.HasNext
    if h then
      let ((k, v, _e), s2) := s1.Next
      (k, v) :: KVsrc.run fuel s2
    else []

/-- Drive a base triple source directly. -/
def KVSsrc.run : Nat → KVSsrc → List (Bytes × Bytes × Nat)
  | 0, _ => []
  | fuel + 1, s =>
    let (h, s1) := s.HasNext
    if h then
      let ((k, v, st, _e), s2) := s1.Next
      (k, v, st) :: KVSsrc.run fuel s2
    else []

def UnionKVIter.run : Nat → UnionKVIter → List (Bytes × Bytes)
  | 0, _ => []
  | fuel + 1, m =>
    if m.HasNext then
      let ((k, v, _e), m1) := m.Next
      (k, v) :: UnionKVIter.run fuel m1
    else []

def WrapKVIter.run : Nat → WrapKVIter → List (Bytes × Bytes)
  | 0, _ => []
  | fuel + 1, m =>
    if m.HasNext then
      let ((k, v, _e), m1) := m.Next
      (k, v) :: WrapKVIter.run fuel m1
    else []

def WrapKVSIter.run : Nat → WrapKVSIter → List (Bytes × Bytes × Nat)
  | 0, _ => []
  | fuel + 1, m =>
    if m.HasNext then
      let ((k, v, st, _e), m1) := m.Next
      (k, v, st) :: WrapKVSIter.run fuel m1
    else []

def MergedKV.run : Nat → MergedKV → List (Bytes × Bytes × Nat)
  | 0, _ => []
  | fuel + 1, m =>
    if m.HasNext then
      let ((k, v, st, _e), m1) := m.Next
      (k, v, st) :: MergedKV.run fuel m1
    else []

/-- The pairs emitted by a constructed KV stream. -/
def KVResult.collect (fuel : Nat) : KVResult → List (Bytes × Bytes)
  | .emptyKV => []
  | .srcKV s => s.run fuel
  | .wrapKV w => w.run fuel
  | .unionKV m => m.run fuel

/-- The triples emitted by a constructed KVS stream. -/
def KVSResult.collect (fuel : Nat) : KVSResult → List (Bytes × Bytes × Nat)
  | .emptyKVS => []
  | .srcKVS s => s.run fuel
  | .wrapKVS w => w.run fuel
  | .merged m => m.run fuel

/-- Availability of a constructed KV stream (the `HasNext` the consumer
would observe first). -/
def KVResult.hasNextB : KVResult → Bool
  | .emptyKV => false
  | .srcKV s => s.hasNextB
  | .wrapKV w => w.HasNext
  | .unionKV m => m.HasNext

def KVSResult.hasNextB : KVSResult → Bool
  | .emptyKVS => false
  | .srcKVS s => s.hasNextB
  | .wrapKVS w => w.HasNext
  | .merged m => m.HasNext

/-! ## Pure list-level merge functions

These mirror, step for step, the emission discipline of
`UnionKVIter.Next` and `MergedKV.Next` on the remaining (buffered plus
pending) items of the two sides; the run-characterisation lemmas below
prove that the iterators emit exactly these lists. -/

/-- Deduplicating union merge: smaller key first; on equal keys `x`'s
pair is emitted and `y`'s pair for that key is discarded. -/
def unionList : List (Bytes × Bytes) → List (Bytes × Bytes) → List (Bytes × Bytes)
  | [], ys => ys
  | xs, [] => xs
  | (xk, xv) :: xs, (yk, yv) :: ys =>
    match bytesCompare xk yk with
    | .lt => (xk, xv) :: unionList xs ((yk, yv) :: ys)
    | .eq => (xk, xv) :: unionList xs ys
    | .gt => (yk, yv) :: unionList ((xk, xv) :: xs) ys
termination_by xs ys => xs.length + ys.length

/-- Non-deduplicating merge: on `cmp <= 0` emit `x`'s triple and advance
`x` only; otherwise emit `y`'s pair lifted with step 0. -/
def mergeList : List (Bytes × Bytes × Nat) → List (Bytes × Bytes) → List (Bytes × Bytes × Nat)
  | [], ys => ys.map (fun p => (p.1, p.2, 0))
  | xs, [] => xs
  | (xk, xv, xst) :: xs, (yk, yv) :: ys =>
    if bytesCompare xk yk ≠ Ordering.gt then
      (xk, xv, xst) :: mergeList xs ((yk, yv) :: ys)
    else
      (yk, yv, 0) :: mergeList ((xk, xv, xst) :: xs) ys
termination_by xs ys => xs.length + ys.length

/-- Truncation by the composite's limit: a negative limit never reaches
zero (no limit); a non-negative limit allows that many emissions. -/
def limitTake {α : Type} (L : Int) (l : List α) : List α :=
  if L < 0 then l else l.take L.toNat

/-- Strictly ascending keys (first components). -/
def sortedKeysLt {α : Type} (l : List (Bytes × α)) : Prop :=
  l.Pairwise (fun p q => bLt p.1 q.1)

/-- Non-strictly ascending keys. -/
def sortedKeysLe {α : Type} (l : List (Bytes × α)) : Prop :=
  l.Pairwise (fun p q => bLe p.1 q.1)

instance {α : Type} (l : List (Bytes × α)) : Decidable (sortedKeysLt l) := by
  unfold sortedKeysLt; infer_instance

instance {α : Type} (l : List (Bytes × α)) : Decidable (sortedKeysLe l) := by
  unfold sortedKeysLe; infer_instance


/-! ## Effect of the advance methods (error-free sources) -/

theorem limitTake_nil {α : Type} (L : Int) : limitTake L ([] : List α) = [] := by
  unfold limitTake; split_ifs <;> simp

theorem limitTake_zero {α : Type} (l : List α) : limitTake 0 l = [] := by
  unfold limitTake; simp

theorem limitTake_cons {α : Type} {L : Int} (hL : L ≠ 0) (a : α) (t : List α) :
    limitTake L (a :: t) = a :: limitTake (L - 1) t := by
  unfold limitTake
  split_ifs with h1 h2 h2
  · rfl
  · omega
  · omega
  · have h3 : L.toNat = (L - 1).toNat + 1 := by omega
    rw [h3, List.take_succ_cons]

theorem unionList_nil_left (ys : List (Bytes × Bytes)) : unionList [] ys = ys := by
  cases ys <;> simp [unionList]

theorem unionList_nil_right (xs : List (Bytes × Bytes)) : unionList xs [] = xs := by
  cases xs <;> simp [unionList]

theorem unionList_cons_cons (xk xv yk yv : Bytes)
    (xs ys : List (Bytes × Bytes)) :
    unionList ((xk, xv) :: xs) ((yk, yv) :: ys) =
      match bytesCompare xk yk with
      | .lt => (xk, xv) :: unionList xs ((yk, yv) :: ys)
      | .eq => (xk, xv) :: unionList xs ys
      | .gt => (yk, yv) :: unionList ((xk, xv) :: xs) ys := by
  simp [unionList]

theorem mergeList_nil_left (ys : List (Bytes × Bytes)) :
    mergeList [] ys = ys.map (fun p => (p.1, p.2, 0)) := by
  cases ys <;> simp [mergeList]

theorem mergeList_nil_right (xs : List (Bytes × Bytes × Nat)) : mergeList xs [] = xs := by
  cases xs <;> simp [mergeList]

theorem mergeList_cons_cons (xk xv : Bytes) (xst : Nat) (yk yv : Bytes)
    (xs : List (Bytes × Bytes × Nat)) (ys : List (Bytes × Bytes)) :
    mergeList ((xk, xv, xst) :: xs) ((yk, yv) :: ys) =
      if bytesCompare xk yk ≠ Ordering.gt then
        (xk, xv, xst) :: mergeList xs ((yk, yv) :: ys)
      else
        (yk, yv, 0) :: mergeList ((xk, xv, xst) :: xs) ys := by
  simp [mergeList]

/-- Remaining pairs on the `x` side of a union iterator: the buffered
lookahead (when `xHasNext`) followed by the source's pending items. -/
def UnionKVIter.xs (m : UnionKVIter) : List (Bytes × Bytes) :=
  (if m.xHasNext then [(m.xNextK, m.xNextV)] else []) ++ m.x.items

def UnionKVIter.ys (m : UnionKVIter) : List (Bytes × Bytes) :=
  (if m.yHasNext then [(m.yNextK, m.yNextV)] else []) ++ m.y.items

/-- Error-free well-formedness of a (primed) union iterator state. -/
def UnionKVIter.Inv (m : UnionKVIter) : Prop :=
  m.err = none ∧ m.x.terr = none ∧ m.y.terr = none ∧
    (m.xHasNext = false → m.x.items = []) ∧ (m.yHasNext = false → m.y.items = [])

theorem UnionKVIter.advanceX_cons {m : UnionKVIter} {k v : Bytes}
    {rest : List (Bytes × Bytes)}
    (he : m.err = none) (hi : m.x.items = (k, v) :: rest) :
    m.advanceX =
      { m with x := { m.x with items := rest, calls := m.x.calls + 1 + 1 },
               xHasNext := true, xNextK := k, xNextV := v, err := none } := by
  simp [advanceX, KVsrc.HasNext, KVsrc.Next, KVsrc.hasNextB, he, hi]

theorem UnionKVIter.advanceX_nil {m : UnionKVIter}
    (he : m.err = none) (hi : m.x.items = []) (ht : m.x.terr = none) :
    m.advanceX =
      { m with x := { m.x with calls := m.x.calls + 1 }, xHasNext := false } := by
  simp [advanceX, KVsrc.HasNext, KVsrc.hasNextB, he, hi, ht]

theorem UnionKVIter.advanceY_cons {m : UnionKVIter} {k v : Bytes}
    {rest : List (Bytes × Bytes)}
    (he : m.err = none) (hi : m.y.items = (k, v) :: rest) :
    m.advanceY =
      { m with y := { m.y with items := rest, calls := m.y.calls + 1 + 1 },
               yHasNext := true, yNextK := k, yNextV := v, err := none } := by
  simp [advanceY, KVsrc.HasNext, KVsrc.Next, KVsrc.hasNextB, he, hi]

theorem UnionKVIter.advanceY_nil {m : UnionKVIter}
    (he : m.err = none) (hi : m.y.items = []) (ht : m.y.terr = none) :
    m.advanceY =
      { m with y := { m.y with calls := m.y.calls + 1 }, yHasNext := false } := by
  simp [advanceY, KVsrc.HasNext, KVsrc.hasNextB, he, hi, ht]

/-- Everything `advanceX` does to an error-free union iterator, stated on
the abstraction: the `x` remainder loses its buffered head, the `y` side,
limit and error state are untouched. -/
theorem UnionKVIter.advX_spec (m : UnionKVIter)
    (he : m.err = none) (hxt : m.x.terr = none) :
    (m.advanceX).err = none ∧ (m.advanceX).x.terr = none ∧
    (m.advanceX).xs = m.x.items ∧
    ((m.advanceX).xHasNext = false → (m.advanceX).x.items = []) ∧
    (m.advanceX).ys = m.ys ∧ (m.advanceX).y = m.y ∧
    (m.advanceX).yHasNext = m.yHasNext ∧
    (m.advanceX).limit = m.limit := by
  cases hi : m.x.items with
  | nil =>
    rw [UnionKVIter.advanceX_nil he hi hxt]
    simp [UnionKVIter.xs, UnionKVIter.ys, hi, hxt, he]
  | cons p rest =>
    obtain ⟨k, v⟩ := p
    rw [UnionKVIter.advanceX_cons he hi]
    simp [UnionKVIter.xs, UnionKVIter.ys, hxt]

/-- Mirror of `advX_spec` for `advanceY`. -/
theorem UnionKVIter.advY_spec (m : UnionKVIter)
    (he : m.err = none) (hyt : m.y.terr = none) :
    (m.advanceY).err = none ∧ (m.advanceY).y.terr = none ∧
    (m.advanceY).ys = m.y.items ∧
    ((m.advanceY).yHasNext = false → (m.advanceY).y.items = []) ∧
    (m.advanceY).xs = m.xs ∧ (m.advanceY).x = m.x ∧
    (m.advanceY).xHasNext = m.xHasNext ∧
    (m.advanceY).limit = m.limit := by
  cases hi : m.y.items with
  | nil =>
    rw [UnionKVIter.advanceY_nil he hi hyt]
    simp [UnionKVIter.xs, UnionKVIter.ys, hi, hyt, he]
  | cons p rest =>
    obtain ⟨k, v⟩ := p
    rw [UnionKVIter.advanceY_cons he hi]
    simp [UnionKVIter.xs, UnionKVIter.ys, hyt]

/-- Run characterisation of `UnionKVIter`: over error-free sources, a
sufficiently fuelled run emits exactly the limit-truncated pure union
merge of the remaining items of the two sides. -/
theorem UnionKVIter.run_eq : ∀ (fuel : Nat) (m : UnionKVIter), m.Inv →
    m.xs.length + m.ys.length ≤ fuel →
    m.run fuel = limitTake m.limit (unionList m.xs m.ys) := by
  intro fuel
  induction fuel with
  | zero =>
    intro m _ hf
    have hx0 : m.xs = [] := List.eq_nil_of_length_eq_zero (by omega)
    have hy0 : m.ys = [] := List.eq_nil_of_length_eq_zero (by omega)
    simp [UnionKVIter.run, hx0, hy0, unionList_nil_left, limitTake_nil]
  | succ fuel ih =>
    intro m hInv hf
    obtain ⟨he, hxt, hyt, hxf, hyf⟩ := hInv
    by_cases hL : m.limit = 0
    · have hHN : m.HasNext = false := by
        simp [UnionKVIter.HasNext, he, hL]
      simp [UnionKVIter.run, hHN, hL, limitTake_zero]
    · have hBL : (m.limit != 0) = true := by simpa using hL
      cases hx : m.xHasNext with
      | false =>
        have hxi : m.x.items = [] := hxf hx
        have hxs0 : m.xs = [] := by simp [UnionKVIter.xs, hx, hxi]
        cases hy : m.yHasNext with
        | false =>
          have hyi : m.y.items = [] := hyf hy
          have hys0 : m.ys = [] := by simp [UnionKVIter.ys, hy, hyi]
          have hHN : m.HasNext = false := by
            simp [UnionKVIter.HasNext, he, hx, hy]
          simp [UnionKVIter.run, hHN, hxs0, hys0, unionList_nil_left, limitTake_nil]
        | true =>
          have hys : m.ys = (m.yNextK, m.yNextV) :: m.y.items := by
            simp [UnionKVIter.ys, hy]
          have hHN : m.HasNext = true := by
            simp [UnionKVIter.HasNext, hBL, hy]
          have hnext : m.Next = ((m.yNextK, m.yNextV, none),
              ({ m with limit := m.limit - 1 }).advanceY) := by
            simp [UnionKVIter.Next, he, hx]
          obtain ⟨s1, s2, s3, s4, s5, s6, s7, s8⟩ :=
            UnionKVIter.advY_spec ({ m with limit := m.limit - 1 })
              (by simpa using he) (by simpa using hyt)
          set m' := ({ m with limit := m.limit - 1 } : UnionKVIter).advanceY with hm'
          simp only at s1 s2 s3 s4 s5 s6 s7 s8
          have hInv' : m'.Inv := by
            refine ⟨s1, ?_, s2, ?_, s4⟩
            · rw [s6]; exact hxt
            · intro hfalse
              rw [s6, hxi]
          have hxs' : m'.xs = [] := by
            rw [s5]; simp [UnionKVIter.xs, hx, hxi]
          have hlen : m.ys.length = m.y.items.length + 1 := by
            rw [hys]; simp
          have hf' : m'.xs.length + m'.ys.length ≤ fuel := by
            rw [hxs', s3]; simp at hf ⊢
            omega
          have hrec := ih m' hInv' hf'
          rw [UnionKVIter.run]
          simp only [hHN, if_true, hnext]
          rw [hrec, hxs', s3, s8]
          simp only [unionList_nil_left]
          rw [hxs0, unionList_nil_left, hys, limitTake_cons hL]
      | true =>
        have hxs : m.xs = (m.xNextK, m.xNextV) :: m.x.items := by
          simp [UnionKVIter.xs, hx]
        cases hy : m.yHasNext with
        | false =>
          have hyi : m.y.items = [] := hyf hy
          have hys0 : m.ys = [] := by simp [UnionKVIter.ys, hy, hyi]
          have hHN : m.HasNext = true := by
            simp [UnionKVIter.HasNext, hBL, hx]
          have hnext : m.Next = ((m.xNextK, m.xNextV, none),
              ({ m with limit := m.limit - 1 }).advanceX) := by
            simp [UnionKVIter.Next, he, hx, hy]
          obtain ⟨s1, s2, s3, s4, s5, s6, s7, s8⟩ :=
            UnionKVIter.advX_spec ({ m with limit := m.limit - 1 })
              (by simpa using he) (by simpa using hxt)
          set m' := ({ m with limit := m.limit - 1 } : UnionKVIter).advanceX with hm'
          simp only at s1 s2 s3 s4 s5 s6 s7 s8
          have hInv' : m'.Inv := by
            refine ⟨s1, s2, ?_, s4, ?_⟩
            · rw [s6]; exact hyt
            · intro hfalse
              rw [s6, hyi]
          have hys' : m'.ys = [] := by
            rw [s5]; simp [UnionKVIter.ys, hy, hyi]
          have hf' : m'.xs.length + m'.ys.length ≤ fuel := by
            rw [hys', s3]
            have : m.xs.length = m.x.items.length + 1 := by rw [hxs]; simp
            simp at hf ⊢
            omega
          have hrec := ih m' hInv' hf'
          rw [UnionKVIter.run]
          simp only [hHN, if_true, hnext]
          rw [hrec, hys', s3, s8]
          simp only [unionList_nil_right]
          rw [hys0, unionList_nil_right, hxs, limitTake_cons hL]
        | true =>
          have hys : m.ys = (m.yNextK, m.yNextV) :: m.y.items := by
            simp [UnionKVIter.ys, hy]
          have hHN : m.HasNext = true := by
            simp [UnionKVIter.HasNext, hBL, hx]
          rcases hcmp : bytesCompare m.xNextK m.yNextK with _ | _ | _
          · -- lt : emit x, advance x only
            have hnext : m.Next = ((m.xNextK, m.xNextV, none),
                ({ m with limit := m.limit - 1 }).advanceX) := by
              simp [UnionKVIter.Next, he, hx, hy, hcmp]
            obtain ⟨s1, s2, s3, s4, s5, s6, s7, s8⟩ :=
              UnionKVIter.advX_spec ({ m with limit := m.limit - 1 })
                (by simpa using he) (by simpa using hxt)
            set m' := ({ m with limit := m.limit - 1 } : UnionKVIter).advanceX with hm'
            simp only at s1 s2 s3 s4 s5 s6 s7 s8
            have hys1 : ({ m with limit := m.limit - 1 } : UnionKVIter).ys = m.ys := by
              simp [UnionKVIter.ys]
            rw [hys1] at s5
            have hInv' : m'.Inv := by
              refine ⟨s1, s2, ?_, s4, ?_⟩
              · rw [s6]; exact hyt
              · intro hfalse
                rw [s7] at hfalse
                rw [s6]; exact hyf hfalse
            have hf' : m'.xs.length + m'.ys.length ≤ fuel := by
              rw [s3, s5]
              have : m.xs.length = m.x.items.length + 1 := by rw [hxs]; simp
              omega
            have hrec := ih m' hInv' hf'
            rw [UnionKVIter.run]
            simp only [hHN, if_true, hnext]
            rw [hrec, s3, s5, s8]
            rw [hxs, hys, unionList_cons_cons]
            simp only [hcmp]
            rw [← hys, limitTake_cons hL]
          · -- eq : emit x, advance both
            have hnext : m.Next = ((m.xNextK, m.xNextV, none),
                ({ m with limit := m.limit - 1 }).advanceX.advanceY) := by
              simp [UnionKVIter.Next, he, hx, hy, hcmp]
            obtain ⟨s1, s2, s3, s4, s5, s6, s7, s8⟩ :=
              UnionKVIter.advX_spec ({ m with limit := m.limit - 1 })
                (by simpa using he) (by simpa using hxt)
            set m2 := ({ m with limit := m.limit - 1 } : UnionKVIter).advanceX with hm2
            simp only at s1 s2 s3 s4 s5 s6 s7 s8
            obtain ⟨t1, t2, t3, t4, t5, t6, t7, t8⟩ :=
              UnionKVIter.advY_spec m2 s1 (by rw [s6]; exact hyt)
            set m' := m2.advanceY with hm'
            have hInv' : m'.Inv := by
              refine ⟨t1, ?_, t2, ?_, t4⟩
              · rw [t6]; exact s2
              · intro hfalse
                rw [t7] at hfalse
                rw [t6]; exact s4 hfalse
            have hf' : m'.xs.length + m'.ys.length ≤ fuel := by
              rw [t5, s3, t3, s6]
              have h1 : m.xs.length = m.x.items.length + 1 := by rw [hxs]; simp
              have h2 : m.ys.length = m.y.items.length + 1 := by rw [hys]; simp
              omega
            have hrec := ih m' hInv' hf'
            rw [UnionKVIter.run]
            simp only [hHN, if_true, hnext]
            rw [hrec, t5, s3, t3, s6, t8, s8]
            rw [hxs, hys, unionList_cons_cons]
            simp only [hcmp]
            rw [limitTake_cons hL]
          · -- gt : emit y, advance y only
            have hnext : m.Next = ((m.yNextK, m.yNextV, none),
                ({ m with limit := m.limit - 1 }).advanceY) := by
              simp [UnionKVIter.Next, he, hx, hy, hcmp]
            obtain ⟨s1, s2, s3, s4, s5, s6, s7, s8⟩ :=
              UnionKVIter.advY_spec ({ m with limit := m.limit - 1 })
                (by simpa using he) (by simpa using hyt)
            set m' := ({ m with limit := m.limit - 1 } : UnionKVIter).advanceY with hm'
            simp only at s1 s2 s3 s4 s5 s6 s7 s8
            have hxs1 : ({ m with limit := m.limit - 1 } : UnionKVIter).xs = m.xs := by
              simp [UnionKVIter.xs]
            rw [hxs1] at s5
            have hInv' : m'.Inv := by
              refine ⟨s1, ?_, s2, ?_, s4⟩
              · rw [s6]; exact hxt
              · intro hfalse
                rw [s7] at hfalse
                rw [s6]; exact hxf hfalse
            have hf' : m'.xs.length + m'.ys.length ≤ fuel := by
              rw [s3, s5]
              have : m.ys.length = m.y.items.length + 1 := by rw [hys]; simp
              omega
            have hrec := ih m' hInv' hf'
            rw [UnionKVIter.run]
            simp only [hHN, if_true, hnext]
            rw [hrec, s3, s5, s8]
            rw [hxs, hys, unionList_cons_cons]
            simp only [hcmp]
            rw [← hxs, limitTake_cons hL]

/-- Collecting `UnionKV(x, y, L)` over error-free sources yields the
limit-truncated pure union merge of the two item lists. -/
theorem UnionKV_collect (x y : KVsrc) (L : Int) (fuel : Nat)
    (hxt : x.terr = none) (hyt : y.terr = none)
    (hfuel : x.items.length + y.items.length ≤ fuel) :
    (UnionKV (some x) (some y) L).collect fuel =
      limitTake L (unionList x.items y.items) := by
  obtain ⟨s1, s2, s3, s4, s5, s6, s7, s8⟩ :=
    UnionKVIter.advX_spec ({ x := x, y := y, limit := L } : UnionKVIter)
      rfl (by simpa using hxt)
  set m1 := ({ x := x, y := y, limit := L } : UnionKVIter).advanceX with hm1
  simp only at s1 s2 s3 s4 s5 s6 s7 s8
  have hys1 : ({ x := x, y := y, limit := L } : UnionKVIter).ys = y.items := by
    simp [UnionKVIter.ys]
  rw [hys1] at s5
  obtain ⟨t1, t2, t3, t4, t5, t6, t7, t8⟩ :=
    UnionKVIter.advY_spec m1 s1 (by rw [s6]; simpa using hyt)
  set m0 := m1.advanceY with hm0
  have hInv : m0.Inv := by
    refine ⟨t1, ?_, t2, ?_, t4⟩
    · rw [t6]; exact s2
    · intro hfalse
      rw [t7] at hfalse
      rw [t6]; exact s4 hfalse
  have hxs : m0.xs = x.items := by rw [t5, s3]
  have hys : m0.ys = y.items := by rw [t3, s6]
  have hlim : m0.limit = L := by rw [t8, s8]
  have hrun := UnionKVIter.run_eq fuel m0 hInv (by rw [hxs, hys]; exact hfuel)
  simp only [UnionKV, KVResult.collect]
  rw [hrun, hxs, hys, hlim]

/-! ## MergedKV run characterisation -/

/-- Remaining triples on the `x` side of a merged iterator. -/
def MergedKV.xs (m : MergedKV) : List (Bytes × Bytes × Nat) :=
  (if m.xHasNext then [(m.xNextK, m.xNextV, m.xStep)] else []) ++ m.x.items

def MergedKV.ys (m : MergedKV) : List (Bytes × Bytes) :=
  (if m.yHasNext then [(m.yNextK, m.yNextV)] else []) ++ m.y.items

def MergedKV.Inv (m : MergedKV) : Prop :=
  m.err = none ∧ m.x.terr = none ∧ m.y.terr = none ∧
    (m.xHasNext = false → m.x.items = []) ∧ (m.yHasNext = false → m.y.items = [])

theorem MergedKV.mAdvanceX_cons {m : MergedKV} {k v : Bytes} {st : Nat}
    {rest : List (Bytes × Bytes × Nat)}
    (he : m.err = none) (hi : m.x.items = (k, v, st) :: rest) :
    m.advanceX =
      { m with x := { m.x with items := rest, calls := m.x.calls + 1 + 1 },
               xHasNext := true, xNextK := k, xNextV := v, xStep := st, err := none } := by
  simp [advanceX, KVSsrc.HasNext, KVSsrc.Next, KVSsrc.hasNextB, he, hi]

theorem MergedKV.mAdvanceX_nil {m : MergedKV}
    (he : m.err = none) (hi : m.x.items = []) (ht : m.x.terr = none) :
    m.advanceX =
      { m with x := { m.x with calls := m.x.calls + 1 }, xHasNext := false } := by
  simp [advanceX, KVSsrc.HasNext, KVSsrc.hasNextB, he, hi, ht]

theorem MergedKV.mAdvanceY_cons {m : MergedKV} {k v : Bytes}
    {rest : List (Bytes × Bytes)}
    (he : m.err = none) (hi : m.y.items = (k, v) :: rest) :
    m.advanceY =
      { m with y := { m.y with items := rest, calls := m.y.calls + 1 + 1 },
               yHasNext := true, yNextK := k, yNextV := v, err := none } := by
  simp [advanceY, KVsrc.HasNext, KVsrc.Next, KVsrc.hasNextB, he, hi]

theorem MergedKV.mAdvanceY_nil {m : MergedKV}
    (he : m.err = none) (hi : m.y.items = []) (ht : m.y.terr = none) :
    m.advanceY =
      { m with y := { m.y with calls := m.y.calls + 1 }, yHasNext := false } := by
  simp [advanceY, KVsrc.HasNext, KVsrc.hasNextB, he, hi, ht]

theorem MergedKV.mAdvX_spec (m : MergedKV)
    (he : m.err = none) (hxt : m.x.terr = none) :
    (m.advanceX).err = none ∧ (m.advanceX).x.terr = none ∧
    (m.advanceX).xs = m.x.items ∧
    ((m.advanceX).xHasNext = false → (m.advanceX).x.items = []) ∧
    (m.advanceX).ys = m.ys ∧ (m.advanceX).y = m.y ∧
    (m.advanceX).yHasNext = m.yHasNext ∧
    (m.advanceX).limit = m.limit := by
  cases hi : m.x.items with
  | nil =>
    rw [MergedKV.mAdvanceX_nil he hi hxt]
    simp [MergedKV.xs, MergedKV.ys, hi, hxt, he]
  | cons p rest =>
    obtain ⟨k, v, st⟩ := p
    rw [MergedKV.mAdvanceX_cons he hi]
    simp [MergedKV.xs, MergedKV.ys, hxt]

theorem MergedKV.mAdvY_spec (m : MergedKV)
    (he : m.err = none) (hyt : m.y.terr = none) :
    (m.advanceY).err = none ∧ (m.advanceY).y.terr = none ∧
    (m.advanceY).ys = m.y.items ∧
    ((m.advanceY).yHasNext = false → (m.advanceY).y.items = []) ∧
    (m.advanceY).xs = m.xs ∧ (m.advanceY).x = m.x ∧
    (m.advanceY).xHasNext = m.xHasNext ∧
    (m.advanceY).limit = m.limit := by
  cases hi : m.y.items with
  | nil =>
    rw [MergedKV.mAdvanceY_nil he hi hyt]
    simp [MergedKV.xs, MergedKV.ys, hi, hyt, he]
  | cons p rest =>
    obtain ⟨k, v⟩ := p
    rw [MergedKV.mAdvanceY_cons he hi]
    simp [MergedKV.xs, MergedKV.ys, hyt]

/-- Run characterisation of `MergedKV`: a sufficiently fuelled run over
error-free sources emits the limit-truncated pure non-deduplicating
merge. -/
theorem MergedKV.mRun_eq : ∀ (fuel : Nat) (m : MergedKV), m.Inv →
    m.xs.length + m.ys.length ≤ fuel →
    m.run fuel = limitTake m.limit (mergeList m.xs m.ys) := by
  intro fuel
  induction fuel with
  | zero =>
    intro m _ hf
    have hx0 : m.xs = [] := List.eq_nil_of_length_eq_zero (by omega)
    have hy0 : m.ys = [] := List.eq_nil_of_length_eq_zero (by omega)
    simp [MergedKV.run, hx0, hy0, mergeList_nil_left, limitTake_nil]
  | succ fuel ih =>
    intro m hInv hf
    obtain ⟨he, hxt, hyt, hxf, hyf⟩ := hInv
    by_cases hL : m.limit = 0
    · have hHN : m.HasNext = false := by
        simp [MergedKV.HasNext, he, hL]
      simp [MergedKV.run, hHN, hL, limitTake_zero]
    · have hBL : (m.limit != 0) = true := by simpa using hL
      cases hx : m.xHasNext with
      | false =>
        have hxi : m.x.items = [] := hxf hx
        have hxs0 : m.xs = [] := by simp [MergedKV.xs, hx, hxi]
        cases hy : m.yHasNext with
        | false =>
          have hyi : m.y.items = [] := hyf hy
          have hys0 : m.ys = [] := by simp [MergedKV.ys, hy, hyi]
          have hHN : m.HasNext = false := by
            simp [MergedKV.HasNext, he, hx, hy]
          simp [MergedKV.run, hHN, hxs0, hys0, mergeList_nil_left, limitTake_nil]
        | true =>
          have hys : m.ys = (m.yNextK, m.yNextV) :: m.y.items := by
            simp [MergedKV.ys, hy]
          have hHN : m.HasNext = true := by
            simp [MergedKV.HasNext, hBL, hy]
          have hnext : m.Next = ((m.yNextK, m.yNextV, 0, none),
              ({ m with limit := m.limit - 1 }).advanceY) := by
            simp [MergedKV.Next, he, hx]
          obtain ⟨s1, s2, s3, s4, s5, s6, s7, s8⟩ :=
            MergedKV.mAdvY_spec ({ m with limit := m.limit - 1 })
              (by simpa using he) (by simpa using hyt)
          set m' := ({ m with limit := m.limit - 1 } : MergedKV).advanceY with hm'
          simp only at s1 s2 s3 s4 s5 s6 s7 s8
          have hxs1 : ({ m with limit := m.limit - 1 } : MergedKV).xs = m.xs := by
            simp [MergedKV.xs]
          rw [hxs1] at s5
          have hInv' : m'.Inv := by
            refine ⟨s1, ?_, s2, ?_, s4⟩
            · rw [s6]; exact hxt
            · intro hfalse
              rw [s7] at hfalse
              rw [s6]; exact hxf hfalse
          have hxs' : m'.xs = [] := by rw [s5, hxs0]
          have hf' : m'.xs.length + m'.ys.length ≤ fuel := by
            rw [hxs', s3]
            have : m.ys.length = m.y.items.length + 1 := by rw [hys]; simp
            simp at hf ⊢
            omega
          have hrec := ih m' hInv' hf'
          rw [MergedKV.run]
          simp only [hHN, if_true, hnext]
          rw [hrec, hxs', s3, s8]
          rw [hxs0, mergeList_nil_left, hys, mergeList_nil_left]
          simp only [List.map_cons]
          rw [limitTake_cons hL]
      | true =>
        have hxs : m.xs = (m.xNextK, m.xNextV, m.xStep) :: m.x.items := by
          simp [MergedKV.xs, hx]
        cases hy : m.yHasNext with
        | false =>
          have hyi : m.y.items = [] := hyf hy
          have hys0 : m.ys = [] := by simp [MergedKV.ys, hy, hyi]
          have hHN : m.HasNext = true := by
            simp [MergedKV.HasNext, hBL, hx]
          have hnext : m.Next = ((m.xNextK, m.xNextV, m.xStep, none),
              ({ m with limit := m.limit - 1 }).advanceX) := by
            simp [MergedKV.Next, he, hx, hy]
          obtain ⟨s1, s2, s3, s4, s5, s6, s7, s8⟩ :=
            MergedKV.mAdvX_spec ({ m with limit := m.limit - 1 })
              (by simpa using he) (by simpa using hxt)
          set m' := ({ m with limit := m.limit - 1 } : MergedKV).advanceX with hm'
          simp only at s1 s2 s3 s4 s5 s6 s7 s8
          have hys1 : ({ m with limit := m.limit - 1 } : MergedKV).ys = m.ys := by
            simp [MergedKV.ys]
          rw [hys1] at s5
          have hInv' : m'.Inv := by
            refine ⟨s1, s2, ?_, s4, ?_⟩
            · rw [s6]; exact hyt
            · intro hfalse
              rw [s6]; exact hyi
          have hys' : m'.ys = [] := by rw [s5, hys0]
          have hf' : m'.xs.length + m'.ys.length ≤ fuel := by
            rw [hys', s3]
            have : m.xs.length = m.x.items.length + 1 := by rw [hxs]; simp
            simp at hf ⊢
            omega
          have hrec := ih m' hInv' hf'
          rw [MergedKV.run]
          simp only [hHN, if_true, hnext]
          rw [hrec, hys', s3, s8]
          rw [hys0, mergeList_nil_right, hxs, mergeList_nil_right]
          rw [limitTake_cons hL]
        | true =>
          have hys : m.ys = (m.yNextK, m.yNextV) :: m.y.items := by
            simp [MergedKV.ys, hy]
          have hHN : m.HasNext = true := by
            simp [MergedKV.HasNext, hBL, hx]
          by_cases hgt : bytesCompare m.xNextK m.yNextK = Ordering.gt
          · -- emit y, advance y only
            have hnext : m.Next = ((m.yNextK, m.yNextV, 0, none),
                ({ m with limit := m.limit - 1 }).advanceY) := by
              simp [MergedKV.Next, he, hx, hy, hgt]
            obtain ⟨s1, s2, s3, s4, s5, s6, s7, s8⟩ :=
              MergedKV.mAdvY_spec ({ m with limit := m.limit - 1 })
                (by simpa using he) (by simpa using hyt)
            set m' := ({ m with limit := m.limit - 1 } : MergedKV).advanceY with hm'
            simp only at s1 s2 s3 s4 s5 s6 s7 s8
            have hxs1 : ({ m with limit := m.limit - 1 } : MergedKV).xs = m.xs := by
              simp [MergedKV.xs]
            rw [hxs1] at s5
            have hInv' : m'.Inv := by
              refine ⟨s1, ?_, s2, ?_, s4⟩
              · rw [s6]; exact hxt
              · intro hfalse
                rw [s7] at hfalse
                rw [s6]; exact hxf hfalse
            have hf' : m'.xs.length + m'.ys.length ≤ fuel := by
              rw [s3, s5]
              have : m.ys.length = m.y.items.length + 1 := by rw [hys]; simp
              omega
            have hrec := ih m' hInv' hf'
            rw [MergedKV.run]
            simp only [hHN, if_true, hnext]
            rw [hrec, s3, s5, s8]
            rw [hxs, hys, mergeList_cons_cons]
            simp only [hgt, ne_eq, not_true_eq_false, if_false]
            rw [← hxs, limitTake_cons hL]
          · -- cmp <= 0 : emit x, advance x only
            have hnext : m.Next = ((m.xNextK, m.xNextV, m.xStep, none),
                ({ m with limit := m.limit - 1 }).advanceX) := by
              simp [MergedKV.Next, he, hx, hy, hgt]
            obtain ⟨s1, s2, s3, s4, s5, s6, s7, s8⟩ :=
              MergedKV.mAdvX_spec ({ m with limit := m.limit - 1 })
                (by simpa using he) (by simpa using hxt)
            set m' := ({ m with limit := m.limit - 1 } : MergedKV).advanceX with hm'
            simp only at s1 s2 s3 s4 s5 s6 s7 s8
            have hys1 : ({ m with limit := m.limit - 1 } : MergedKV).ys = m.ys := by
              simp [MergedKV.ys]
            rw [hys1] at s5
            have hInv' : m'.Inv := by
              refine ⟨s1, s2, ?_, s4, ?_⟩
              · rw [s6]; exact hyt
              · intro hfalse
                rw [s7] at hfalse
                rw [s6]; exact hyf hfalse
            have hf' : m'.xs.length + m'.ys.length ≤ fuel := by
              rw [s3, s5]
              have : m.xs.length = m.x.items.length + 1 := by rw [hxs]; simp
              omega
            have hrec := ih m' hInv' hf'
            rw [MergedKV.run]
            simp only [hHN, if_true, hnext]
            rw [hrec, s3, s5, s8]
            rw [hxs, hys, mergeList_cons_cons]
            simp only [hgt, ne_eq, not_false_eq_true, if_true]
            rw [← hys, limitTake_cons hL]

/-- Collecting `MergeKVS(x, y, L)` over error-free sources yields the
limit-truncated pure non-deduplicating merge. -/
theorem MergeKVS_collect (x : KVSsrc) (y : KVsrc) (L : Int) (fuel : Nat)
    (hxt : x.terr = none) (hyt : y.terr = none)
    (hfuel : x.items.length + y.items.length ≤ fuel) :
    (MergeKVS (some x) (some y) L).collect fuel =
      limitTake L (mergeList x.items y.items) := by
  obtain ⟨s1, s2, s3, s4, s5, s6, s7, s8⟩ :=
    MergedKV.mAdvX_spec ({ x := x, y := y, limit := L } : MergedKV)
      rfl (by simpa using hxt)
  set m1 := ({ x := x, y := y, limit := L } : MergedKV).advanceX with hm1
  simp only at s1 s2 s3 s4 s5 s6 s7 s8
  have hys1 : ({ x := x, y := y, limit := L } : MergedKV).ys = y.items := by
    simp [MergedKV.ys]
  rw [hys1] at s5
  obtain ⟨t1, t2, t3, t4, t5, t6, t7, t8⟩ :=
    MergedKV.mAdvY_spec m1 s1 (by rw [s6]; simpa using hyt)
  set m0 := m1.advanceY with hm0
  have hInv : m0.Inv := by
    refine ⟨t1, ?_, t2, ?_, t4⟩
    · rw [t6]; exact s2
    · intro hfalse
      rw [t7] at hfalse
      rw [t6]; exact s4 hfalse
  have hxs : m0.xs = x.items := by rw [t5, s3]
  have hys : m0.ys = y.items := by rw [t3, s6]
  have hlim : m0.limit = L := by rw [t8, s8]
  have hrun := MergedKV.mRun_eq fuel m0 hInv (by rw [hxs, hys]; exact hfuel)
  simp only [MergeKVS, KVSResult.collect]
  rw [hrun, hxs, hys, hlim]

/-! ## WrapKVSIter run characterisation -/

/-- Remaining pairs of a wrap-to-KVS adapter. -/
def WrapKVSIter.ysW (m : WrapKVSIter) : List (Bytes × Bytes) :=
  (if m.yHasNext then [(m.yNextK, m.yNextV)] else []) ++ m.y.items

def WrapKVSIter.Inv (m : WrapKVSIter) : Prop :=
  m.err = none ∧ m.y.terr = none ∧ (m.yHasNext = false → m.y.items = [])

theorem WrapKVSIter.wsAdvance_cons {m : WrapKVSIter} {k v : Bytes}
    {rest : List (Bytes × Bytes)}
    (he : m.err = none) (hi : m.y.items = (k, v) :: rest) :
    m.advance =
      { m with y := { m.y with items := rest, calls := m.y.calls + 1 + 1 },
               yHasNext := true, yNextK := k, yNextV := v, err := none } := by
  simp [advance, KVsrc.HasNext, KVsrc.Next, KVsrc.hasNextB, he, hi]

theorem WrapKVSIter.wsAdvance_nil {m : WrapKVSIter}
    (he : m.err = none) (hi : m.y.items = []) (ht : m.y.terr = none) :
    m.advance =
      { m with y := { m.y with calls := m.y.calls + 1 }, yHasNext := false } := by
  simp [advance, KVsrc.HasNext, KVsrc.hasNextB, he, hi, ht]

theorem WrapKVSIter.adv_spec (m : WrapKVSIter)
    (he : m.err = none) (hyt : m.y.terr = none) :
    (m.advance).err = none ∧ (m.advance).y.terr = none ∧
    (m.advance).ysW = m.y.items ∧
    ((m.advance).yHasNext = false → (m.advance).y.items = []) := by
  cases hi : m.y.items with
  | nil =>
    rw [WrapKVSIter.wsAdvance_nil he hi hyt]
    simp [WrapKVSIter.ysW, hi, hyt, he]
  | cons p rest =>
    obtain ⟨k, v⟩ := p
    rw [WrapKVSIter.wsAdvance_cons he hi]
    simp [WrapKVSIter.ysW, hyt]

/-- Run characterisation of the wrap adapter: it emits exactly the
remaining pairs, each lifted with step 0 (no limit is involved). -/
theorem WrapKVSIter.wsRun_eq : ∀ (fuel : Nat) (m : WrapKVSIter), m.Inv →
    m.ysW.length ≤ fuel →
    m.run fuel = m.ysW.map (fun p => (p.1, p.2, 0)) := by
  intro fuel
  induction fuel with
  | zero =>
    intro m _ hf
    have hy0 : m.ysW = [] := List.eq_nil_of_length_eq_zero (by omega)
    simp [WrapKVSIter.run, hy0]
  | succ fuel ih =>
    intro m hInv hf
    obtain ⟨he, hyt, hyf⟩ := hInv
    cases hy : m.yHasNext with
    | false =>
      have hyi : m.y.items = [] := hyf hy
      have hy0 : m.ysW = [] := by simp [WrapKVSIter.ysW, hy, hyi]
      have hHN : m.HasNext = false := by
        simp [WrapKVSIter.HasNext, he, hy]
      simp [WrapKVSIter.run, hHN, hy0]
    | true =>
      have hys : m.ysW = (m.yNextK, m.yNextV) :: m.y.items := by
        simp [WrapKVSIter.ysW, hy]
      have hHN : m.HasNext = true := by
        simp [WrapKVSIter.HasNext, hy]
      have hnext : m.Next = ((m.yNextK, m.yNextV, 0, none), m.advance) := by
        simp [WrapKVSIter.Next, he]
      obtain ⟨s1, s2, s3, s4⟩ := WrapKVSIter.adv_spec m he hyt
      have hInv' : (m.advance).Inv := ⟨s1, s2, s4⟩
      have hf' : (m.advance).ysW.length ≤ fuel := by
        rw [s3]
        have : m.ysW.length = m.y.items.length + 1 := by rw [hys]; simp
        omega
      have hrec := ih m.advance hInv' hf'
      rw [WrapKVSIter.run]
      simp only [hHN, if_true, hnext]
      rw [hrec, s3, hys]
      simp

/-! ## Raw source run characterisation -/

/-- Driving an error-free base pair source yields exactly its items —
regardless of any limit a caller may have intended. -/
theorem KVsrc.run_items : ∀ (fuel : Nat) (s : KVsrc), s.terr = none →
    s.items.length ≤ fuel → s.run fuel = s.items := by
  intro fuel
  induction fuel with
  | zero =>
    intro s _ hf
    have h0 : s.items = [] := List.eq_nil_of_length_eq_zero (by omega)
    simp [KVsrc.run, h0]
  | succ fuel ih =>
    intro s ht hf
    cases hi : s.items with
    | nil =>
      simp [KVsrc.run, KVsrc.HasNext, KVsrc.hasNextB, hi, ht]
    | cons p rest =>
      obtain ⟨k, v⟩ := p
      rw [KVsrc.run]
      simp only [KVsrc.HasNext, KVsrc.hasNextB, hi, ht]
      simp only [KVsrc.Next, hi]
      have hrec := ih { items := rest, terr := none, calls := s.calls + 1 + 1,
                        closable := s.closable, closed := s.closed } rfl
        (by rw [hi] at hf; simp at hf ⊢; omega)
      simp [hrec]

/-- Driving an error-free base triple source yields exactly its items. -/
theorem KVSsrc.runS_items : ∀ (fuel : Nat) (s : KVSsrc), s.terr = none →
    s.items.length ≤ fuel → s.run fuel = s.items := by
  intro fuel
  induction fuel with
  | zero =>
    intro s _ hf
    have h0 : s.items = [] := List.eq_nil_of_length_eq_zero (by omega)
    simp [KVSsrc.run, h0]
  | succ fuel ih =>
    intro s ht hf
    cases hi : s.items with
    | nil =>
      simp [KVSsrc.run, KVSsrc.HasNext, KVSsrc.hasNextB, hi, ht]
    | cons p rest =>
      obtain ⟨k, v, st⟩ := p
      rw [KVSsrc.run]
      simp only [KVSsrc.HasNext, KVSsrc.hasNextB, hi, ht]
      simp only [KVSsrc.Next, hi]
      have hrec := ih { items := rest, terr := none, calls := s.calls + 1 + 1,
                        closable := s.closable, closed := s.closed } rfl
        (by rw [hi] at hf; simp at hf ⊢; omega)
      simp [hrec]

/-! ## Pure lemmas about the union merge -/

/-- Keys of an association list. -/
def keysOf {α : Type} (l : List (Bytes × α)) : List Bytes := l.map Prod.fst

/-- The entries of `l` carrying key `k`. -/
def filterKey {α : Type} (k : Bytes) (l : List (Bytes × α)) : List (Bytes × α) :=
  l.filter (fun p => decide (p.1 = k))

theorem sorted_head_bLe {α : Type} {k0 k : Bytes} {a : α} {v : α}
    {l : List (Bytes × α)}
    (hs : sortedKeysLt ((k0, a) :: l)) (hm : (k, v) ∈ (k0, a) :: l) :
    bLe k0 k := by
  rcases List.mem_cons.mp hm with h | h
  · injection h with h1 h2
    exact h1 ▸ bLe_refl k0
  · rw [sortedKeysLt, List.pairwise_cons] at hs
    exact bLe_of_bLt (hs.1 (k, v) h)

theorem sorted_tail_keys {α : Type} {k0 : Bytes} {a : α} {l : List (Bytes × α)}
    (hs : sortedKeysLt ((k0, a) :: l)) : ∀ p ∈ l, bLt k0 p.1 := by
  rw [sortedKeysLt, List.pairwise_cons] at hs
  exact hs.1

theorem filterKey_nil {α : Type} {k : Bytes} {l : List (Bytes × α)}
    (h : ∀ p ∈ l, p.1 ≠ k) : filterKey k l = [] := by
  induction l with
  | nil => rfl
  | cons p t ihl =>
    have hp : ¬ (p.1 = k) := h p (List.mem_cons_self p t)
    simp only [filterKey, List.filter_cons, decide_eq_true_eq]
    rw [if_neg (by simpa using hp)]
    exact ihl (fun q hq => h q (List.mem_cons_of_mem p hq))

theorem filterKey_single {α : Type} {k : Bytes} {v : α} {l : List (Bytes × α)}
    (hs : sortedKeysLt l) (hm : (k, v) ∈ l) : filterKey k l = [(k, v)] := by
  induction l with
  | nil => cases hm
  | cons p t ihl =>
    obtain ⟨k0, v0⟩ := p
    rcases List.mem_cons.mp hm with h | h
    · injection h with h1 h2
      subst h1; subst h2
      have htail : ∀ q ∈ t, q.1 ≠ k := by
        intro q hq heq
        have := sorted_tail_keys hs q hq
        rw [heq] at this
        exact bLt_irrefl k this
      simp only [filterKey, List.filter_cons]
      rw [if_pos (by simp)]
      have := filterKey_nil htail
      rw [filterKey] at this
      rw [this]
    · have hk0 : k0 ≠ k := by
        intro heq
        have := sorted_tail_keys hs (k, v) h
        rw [heq] at this
        exact bLt_irrefl k this
      simp only [filterKey, List.filter_cons]
      rw [if_neg (by simpa using hk0)]
      have hs' : sortedKeysLt t := by
        rw [sortedKeysLt, List.pairwise_cons] at hs
        exact hs.2
      have := ihl hs' h
      rw [filterKey] at this
      rw [this]

/-- Any pair of the first input survives the union merge (shadowing keeps
`x`'s pairs). -/
theorem unionList_mem_left {k vx : Bytes} : ∀ {xs ys : List (Bytes × Bytes)},
    (k, vx) ∈ xs → (k, vx) ∈ unionList xs ys := by
  intro xs ys
  induction xs, ys using unionList.induct with
  | case1 ys => intro h; cases h
  | case2 xs hne => intro h; rw [unionList_nil_right]; exact h
  | case3 xk xv xs yk yv ys hcmp ih =>
    intro h
    rw [unionList_cons_cons]
    simp only [hcmp]
    rcases List.mem_cons.mp h with h | h
    · rw [h]; exact List.mem_cons_self _ _
    · exact List.mem_cons_of_mem _ (ih h)
  | case4 xk xv xs yk yv ys hcmp ih =>
    intro h
    rw [unionList_cons_cons]
    simp only [hcmp]
    rcases List.mem_cons.mp h with h | h
    · rw [h]; exact List.mem_cons_self _ _
    · exact List.mem_cons_of_mem _ (ih h)
  | case5 xk xv xs yk yv ys hcmp ih =>
    intro h
    rw [unionList_cons_cons]
    simp only [hcmp]
    exact List.mem_cons_of_mem _ (ih h)

/-- Keys of the union merge are exactly the keys of the two inputs. -/
theorem unionList_mem_keys (k : Bytes) : ∀ (xs ys : List (Bytes × Bytes)),
    k ∈ keysOf (unionList xs ys) ↔ k ∈ keysOf xs ∨ k ∈ keysOf ys := by
  intro xs ys
  induction xs, ys using unionList.induct with
  | case1 ys => simp [unionList_nil_left, keysOf]
  | case2 xs hne => simp [unionList_nil_right, keysOf]
  | case3 xk xv xs yk yv ys hcmp ih =>
    rw [unionList_cons_cons]
    simp only [hcmp]
    simp only [keysOf, List.map_cons, List.mem_cons] at ih ⊢
    tauto
  | case4 xk xv xs yk yv ys hcmp ih =>
    have hkeq : xk = yk := bytesCompare_eq_iff.mp hcmp
    subst hkeq
    rw [unionList_cons_cons]
    simp only [hcmp]
    simp only [keysOf, List.map_cons, List.mem_cons] at ih ⊢
    tauto
  | case5 xk xv xs yk yv ys hcmp ih =>
    rw [unionList_cons_cons]
    simp only [hcmp]
    simp only [keysOf, List.map_cons, List.mem_cons] at ih ⊢
    tauto

/-- Union merge of strictly key-sorted inputs is strictly key-sorted. -/
theorem unionList_sorted : ∀ {xs ys : List (Bytes × Bytes)},
    sortedKeysLt xs → sortedKeysLt ys → sortedKeysLt (unionList xs ys) := by
  intro xs ys
  induction xs, ys using unionList.induct with
  | case1 ys => intro _ hy; rw [unionList_nil_left]; exact hy
  | case2 xs hne => intro hx _; rw [unionList_nil_right]; exact hx
  | case3 xk xv xs yk yv ys hcmp ih =>
    intro hx hy
    rw [unionList_cons_cons]
    simp only [hcmp]
    rw [sortedKeysLt, List.pairwise_cons]
    constructor
    · intro q hq
      have hkq : q.1 ∈ keysOf (unionList xs ((yk, yv) :: ys)) :=
        List.mem_map_of_mem Prod.fst hq
      rcases (unionList_mem_keys q.1 xs ((yk, yv) :: ys)).mp hkq with h | h
      · simp only [keysOf, List.mem_map] at h
        obtain ⟨p, hp, hpk⟩ := h
        have := sorted_tail_keys hx p hp
        rw [← hpk]
        exact this
      · simp only [keysOf, List.map_cons, List.mem_cons] at h
        rcases h with h | h
        · rw [h]; exact hcmp
        · simp only [List.mem_map] at h
          obtain ⟨p, hp, hpk⟩ := h
          have h2 := sorted_tail_keys hy p hp
          rw [← hpk]
          exact bLt_trans hcmp h2
    · refine ih ?_ hy
      rw [sortedKeysLt, List.pairwise_cons] at hx
      exact hx.2
  | case4 xk xv xs yk yv ys hcmp ih =>
    intro hx hy
    have hkeq : xk = yk := bytesCompare_eq_iff.mp hcmp
    rw [unionList_cons_cons]
    simp only [hcmp]
    rw [sortedKeysLt, List.pairwise_cons]
    constructor
    · intro q hq
      have hkq : q.1 ∈ keysOf (unionList xs ys) :=
        List.mem_map_of_mem Prod.fst hq
      rcases (unionList_mem_keys q.1 xs ys).mp hkq with h | h
      · simp only [keysOf, List.mem_map] at h
        obtain ⟨p, hp, hpk⟩ := h
        have := sorted_tail_keys hx p hp
        rw [← hpk]
        exact this
      · simp only [keysOf, List.mem_map] at h
        obtain ⟨p, hp, hpk⟩ := h
        have h2 := sorted_tail_keys hy p hp
        rw [← hpk]
        rw [hkeq]
        exact h2
    · refine ih ?_ ?_
      · rw [sortedKeysLt, List.pairwise_cons] at hx
        exact hx.2
      · rw [sortedKeysLt, List.pairwise_cons] at hy
        exact hy.2
  | case5 xk xv xs yk yv ys hcmp ih =>
    intro hx hy
    have hlt : bLt yk xk := bytesCompare_gt_iff.mp hcmp
    rw [unionList_cons_cons]
    simp only [hcmp]
    rw [sortedKeysLt, List.pairwise_cons]
    constructor
    · intro q hq
      have hkq : q.1 ∈ keysOf (unionList ((xk, xv) :: xs) ys) :=
        List.mem_map_of_mem Prod.fst hq
      rcases (unionList_mem_keys q.1 ((xk, xv) :: xs) ys).mp hkq with h | h
      · simp only [keysOf, List.map_cons, List.mem_cons] at h
        rcases h with h | h
        · rw [h]; exact hlt
        · simp only [List.mem_map] at h
          obtain ⟨p, hp, hpk⟩ := h
          have h2 := sorted_tail_keys hx p hp
          rw [← hpk]
          exact bLt_trans hlt h2
      · simp only [keysOf, List.mem_map] at h
        obtain ⟨p, hp, hpk⟩ := h
        have := sorted_tail_keys hy p hp
        rw [← hpk]
        exact this
    · refine ih hx ?_
      rw [sortedKeysLt, List.pairwise_cons] at hy
      exact hy.2

theorem sortedKeysLt_nodup {α : Type} {l : List (Bytes × α)}
    (h : sortedKeysLt l) : (keysOf l).Nodup := by
  have hp : List.Pairwise (fun p q : Bytes × α => p.1 ≠ q.1) l := by
    refine List.Pairwise.imp ?_ h
    intro a b hab heq
    rw [heq] at hab
    exact bLt_irrefl b.1 hab
  rw [keysOf]
  exact List.pairwise_map.mpr hp

/-- The union merge of strictly-sorted inputs has exactly one entry per
key of the key-set union. -/
theorem unionList_length {xs ys : List (Bytes × Bytes)}
    (hxs : sortedKeysLt xs) (hys : sortedKeysLt ys) :
    (unionList xs ys).length =
      ((keysOf xs).toFinset ∪ (keysOf ys).toFinset).card := by
  have h1 : (unionList xs ys).length = (keysOf (unionList xs ys)).length := by
    simp [keysOf]
  have hnd : (keysOf (unionList xs ys)).Nodup :=
    sortedKeysLt_nodup (unionList_sorted hxs hys)
  have h3 : (keysOf (unionList xs ys)).toFinset =
      (keysOf xs).toFinset ∪ (keysOf ys).toFinset := by
    ext a
    simp only [List.mem_toFinset, Finset.mem_union]
    exact unionList_mem_keys a xs ys
  rw [h1, ← List.toFinset_card_of_nodup hnd, h3]

/-! ## Pure lemmas about the non-deduplicating merge -/

theorem mergeList_length : ∀ (xs : List (Bytes × Bytes × Nat)) (ys : List (Bytes × Bytes)),
    (mergeList xs ys).length = xs.length + ys.length := by
  intro xs ys
  induction xs, ys using mergeList.induct with
  | case1 ys => rw [mergeList_nil_left]; simp
  | case2 xs hne => rw [mergeList_nil_right]; simp
  | case3 xk xv xst xs yk yv ys hle ih =>
    rw [mergeList_cons_cons, if_pos hle]
    simp only [List.length_cons, ih]
    omega
  | case4 xk xv xst xs yk yv ys hgt ih =>
    rw [mergeList_cons_cons, if_neg hgt]
    simp only [List.length_cons, ih]
    omega

theorem mergeList_mem_keys (k : Bytes) :
    ∀ (xs : List (Bytes × Bytes × Nat)) (ys : List (Bytes × Bytes)),
    k ∈ keysOf (mergeList xs ys) → k ∈ keysOf xs ∨ k ∈ keysOf ys := by
  intro xs ys
  induction xs, ys using mergeList.induct with
  | case1 ys =>
    intro h
    rw [mergeList_nil_left] at h
    right
    simp only [keysOf, List.map_map, List.mem_map] at h ⊢
    obtain ⟨p, hp, hpk⟩ := h
    exact ⟨p, hp, hpk⟩
  | case2 xs hne =>
    intro h
    rw [mergeList_nil_right] at h
    exact Or.inl h
  | case3 xk xv xst xs yk yv ys hle ih =>
    intro h
    rw [mergeList_cons_cons, if_pos hle] at h
    simp only [keysOf, List.map_cons, List.mem_cons] at h ⊢
    rcases h with h | h
    · exact Or.inl (Or.inl h)
    · rcases ih h with h2 | h2
      · exact Or.inl (Or.inr h2)
      · simp only [keysOf, List.map_cons, List.mem_cons] at h2
        exact Or.inr h2
  | case4 xk xv xst xs yk yv ys hgt ih =>
    intro h
    rw [mergeList_cons_cons, if_neg hgt] at h
    simp only [keysOf, List.map_cons, List.mem_cons] at h ⊢
    rcases h with h | h
    · exact Or.inr (Or.inl h)
    · rcases ih h with h2 | h2
      · simp only [keysOf, List.map_cons, List.mem_cons] at h2
        exact Or.inl h2
      · exact Or.inr (Or.inr h2)

/-- Non-deduplicating merge of key-sorted inputs is key-sorted
(non-strictly: a key present on both sides repeats). -/
theorem mergeList_sorted : ∀ {xs : List (Bytes × Bytes × Nat)} {ys : List (Bytes × Bytes)},
    sortedKeysLe xs → sortedKeysLe ys → sortedKeysLe (mergeList xs ys) := by
  intro xs ys
  induction xs, ys using mergeList.induct with
  | case1 ys =>
    intro _ hy
    rw [mergeList_nil_left, sortedKeysLe, List.pairwise_map]
    rw [sortedKeysLe] at hy
    exact hy.imp (fun h => h)
  | case2 xs hne =>
    intro hx _
    rw [mergeList_nil_right]
    exact hx
  | case3 xk xv xst xs yk yv ys hle ih =>
    intro hx hy
    rw [mergeList_cons_cons, if_pos hle]
    rw [sortedKeysLe, List.pairwise_cons]
    rw [sortedKeysLe, List.pairwise_cons] at hx
    constructor
    · intro q hq
      have hkq : q.1 ∈ keysOf (mergeList xs ((yk, yv) :: ys)) :=
        List.mem_map_of_mem Prod.fst hq
      rcases mergeList_mem_keys q.1 xs ((yk, yv) :: ys) hkq with h | h
      · simp only [keysOf, List.mem_map] at h
        obtain ⟨p, hp, hpk⟩ := h
        rw [← hpk]
        exact hx.1 p hp
      · simp only [keysOf, List.map_cons, List.mem_cons] at h
        rcases h with h | h
        · rw [h]; exact hle
        · simp only [List.mem_map] at h
          obtain ⟨p, hp, hpk⟩ := h
          rw [← hpk]
          rw [sortedKeysLe, List.pairwise_cons] at hy
          exact bLe_trans hle (hy.1 p hp)
    · exact ih hx.2 hy
  | case4 xk xv xst xs yk yv ys hgt ih =>
    intro hx hy
    have hyx : bLt yk xk := by
      rw [Ne, not_not] at hgt
      exact bytesCompare_gt_iff.mp hgt
    rw [mergeList_cons_cons, if_neg hgt]
    rw [sortedKeysLe, List.pairwise_cons]
    rw [sortedKeysLe, List.pairwise_cons] at hy
    constructor
    · intro q hq
      have hkq : q.1 ∈ keysOf (mergeList ((xk, xv, xst) :: xs) ys) :=
        List.mem_map_of_mem Prod.fst hq
      rcases mergeList_mem_keys q.1 ((xk, xv, xst) :: xs) ys hkq with h | h
      · simp only [keysOf, List.map_cons, List.mem_cons] at h
        rcases h with h | h
        · rw [h]; exact bLe_of_bLt hyx
        · simp only [List.mem_map] at h
          obtain ⟨p, hp, hpk⟩ := h
          rw [← hpk]
          rw [sortedKeysLe, List.pairwise_cons] at hx
          exact bLe_trans (bLe_of_bLt hyx) (hx.1 p hp)
      · simp only [keysOf, List.mem_map] at h
        obtain ⟨p, hp, hpk⟩ := h
        rw [← hpk]
        exact hy.1 p hp
    · exact ih hx hy.2

/-- A key present on both sides of the non-deduplicating merge appears
exactly twice: `x`'s entry (with its step) immediately followed by `y`'s
entry (step 0); no other entry carries that key. -/
theorem mergeList_dup_split {k xv : Bytes} {sx : Nat} {yv : Bytes} :
    ∀ {xs : List (Bytes × Bytes × Nat)} {ys : List (Bytes × Bytes)},
    sortedKeysLt xs → sortedKeysLt ys →
    (k, xv, sx) ∈ xs → (k, yv) ∈ ys →
    ∃ l1 l2, mergeList xs ys = l1 ++ (k, xv, sx) :: (k, yv, 0) :: l2 ∧
      (∀ p ∈ l1, p.1 ≠ k) ∧ (∀ p ∈ l2, p.1 ≠ k) := by
  intro xs ys
  induction xs, ys using mergeList.induct with
  | case1 bys =>
    intro _ _ hmx _
    cases hmx
  | case2 axs hne =>
    intro _ _ _ hmy
    cases hmy
  | case3 ak av ast axs bk bv bys hle ih =>
    intro hxs hys hmx hmy
    by_cases hak : ak = k
    · have hav : av = xv ∧ ast = sx := by
        rcases List.mem_cons.mp hmx with h | h
        · injection h with h1 h2
          injection h2 with h3 h4
          exact ⟨h3.symm, h4.symm⟩
        · have h5 := sorted_tail_keys hxs _ h
          rw [hak] at h5
          exact absurd h5 (bLt_irrefl k)
      have hbk : bk = k ∧ bv = yv := by
        rcases List.mem_cons.mp hmy with h | h
        · injection h with h1 h2
          exact ⟨h1.symm, h2.symm⟩
        · have h1 := sorted_tail_keys hys _ h
          have h2 : bLe k bk := by rw [← hak]; exact hle
          exact absurd (bLt_of_bLe_of_bLt h2 h1) (bLt_irrefl k)
      have hstep : mergeList axs ((bk, bv) :: bys) = (bk, bv, 0) :: mergeList axs bys := by
        cases haxs : axs with
        | nil => rw [mergeList_nil_left, mergeList_nil_left]; simp
        | cons c crest =>
          obtain ⟨ck, cv, cst⟩ := c
          have h5 := sorted_tail_keys hxs (ck, cv, cst)
          rw [haxs] at h5
          have h6 := h5 (List.mem_cons_self _ _)
          have hck : bLt bk ck := by rw [hbk.1, ← hak]; exact h6
          have hgtc : ¬ (bytesCompare ck bk ≠ Ordering.gt) := by
            rw [Ne, not_not]
            exact bytesCompare_gt_iff.mpr hck
          rw [mergeList_cons_cons, if_neg hgtc]
      have he1 : (ak, av, ast) = (k, xv, sx) := by rw [hak, hav.1, hav.2]
      have he2 : (bk, bv, (0 : Nat)) = (k, yv, 0) := by rw [hbk.1, hbk.2]
      refine ⟨[], mergeList axs bys, ?_, by simp, ?_⟩
      · rw [mergeList_cons_cons, if_pos hle, hstep, he1, he2]
        simp
      · intro p hp heq
        have hkp : p.1 ∈ keysOf (mergeList axs bys) :=
          List.mem_map_of_mem Prod.fst hp
        rcases mergeList_mem_keys p.1 axs bys hkp with h | h
        · simp only [keysOf, List.mem_map] at h
          obtain ⟨q, hq, hqk⟩ := h
          have h6 := sorted_tail_keys hxs q hq
          rw [hqk, heq, hak] at h6
          exact bLt_irrefl k h6
        · simp only [keysOf, List.mem_map] at h
          obtain ⟨q, hq, hqk⟩ := h
          have h6 := sorted_tail_keys hys q hq
          rw [hqk, heq, hbk.1] at h6
          exact bLt_irrefl k h6
    · have hmx' : (k, xv, sx) ∈ axs := by
        rcases List.mem_cons.mp hmx with h | h
        · injection h with h1 h2
          exact absurd h1.symm hak
        · exact h
      have hxs' : sortedKeysLt axs := by
        rw [sortedKeysLt, List.pairwise_cons] at hxs
        exact hxs.2
      obtain ⟨l1, l2, heq, hl1, hl2⟩ := ih hxs' hys hmx' hmy
      refine ⟨(ak, av, ast) :: l1, l2, ?_, ?_, hl2⟩
      · rw [mergeList_cons_cons, if_pos hle, heq]
        simp
      · intro p hp
        rcases List.mem_cons.mp hp with h | h
        · rw [h]; exact hak
        · exact hl1 p h
  | case4 ak av ast axs bk bv bys hgt ih =>
    intro hxs hys hmx hmy
    have hlt : bLt bk ak := by
      rw [Ne, not_not] at hgt
      exact bytesCompare_gt_iff.mp hgt
    have hbk : bk ≠ k := by
      intro heq
      have h1 : bLe ak k := sorted_head_bLe hxs hmx
      rw [← heq] at h1
      exact bLt_irrefl bk (bLt_of_bLt_of_bLe hlt h1)
    have hmy' : (k, yv) ∈ bys := by
      rcases List.mem_cons.mp hmy with h | h
      · injection h with h1 h2
        exact absurd h1.symm hbk
      · exact h
    have hys' : sortedKeysLt bys := by
      rw [sortedKeysLt, List.pairwise_cons] at hys
      exact hys.2
    obtain ⟨l1, l2, heq, hl1, hl2⟩ := ih hxs hys' hmx hmy'
    refine ⟨(bk, bv, 0) :: l1, l2, ?_, ?_, hl2⟩
    · rw [mergeList_cons_cons, if_neg hgt, heq]
      simp
    · intro p hp
      rcases List.mem_cons.mp hp with h | h
      · rw [h]; exact hbk
      · exact hl1 p h

/-! ## Limit bookkeeping -/

theorem UnionKVIter.advanceX_limit (m : UnionKVIter) : (m.advanceX).limit = m.limit := by
  unfold UnionKVIter.advanceX
  by_cases h : m.err.isSome
  · rw [if_pos h]
  · rw [if_neg h]
    simp only [KVsrc.HasNext, KVsrc.Next]
    split <;> (try split) <;> (try split) <;> rfl

theorem UnionKVIter.advanceY_limit (m : UnionKVIter) : (m.advanceY).limit = m.limit := by
  unfold UnionKVIter.advanceY
  by_cases h : m.err.isSome
  · rw [if_pos h]
  · rw [if_neg h]
    simp only [KVsrc.HasNext, KVsrc.Next]
    split <;> (try split) <;> (try split) <;> rfl

theorem MergedKV.mAdvanceX_limit (m : MergedKV) : (m.advanceX).limit = m.limit := by
  unfold MergedKV.advanceX
  by_cases h : m.err.isSome
  · rw [if_pos h]
  · rw [if_neg h]
    simp only [KVSsrc.HasNext, KVSsrc.Next]
    split <;> (try split) <;> (try split) <;> rfl

theorem MergedKV.mAdvanceY_limit (m : MergedKV) : (m.advanceY).limit = m.limit := by
  unfold MergedKV.advanceY
  by_cases h : m.err.isSome
  · rw [if_pos h]
  · rw [if_neg h]
    simp only [KVsrc.HasNext, KVsrc.Next]
    split <;> (try split) <;> (try split) <;> rfl

/-- `Next` either leaves the limit unchanged (latched-error path) or
decrements it by one. -/
theorem UnionKVIter.next_limit (m : UnionKVIter) :
    ((m.Next).2).limit = m.limit ∨ ((m.Next).2).limit = m.limit - 1 := by
  unfold UnionKVIter.Next
  by_cases h : m.err.isSome
  · rw [if_pos h]; exact Or.inl rfl
  · rw [if_neg h]
    right
    by_cases hxy : m.xHasNext && m.yHasNext
    · rw [if_pos hxy]
      rcases hc : bytesCompare m.xNextK m.yNextK with _ | _ | _ <;> simp only [hc]
      · simp [UnionKVIter.advanceX_limit]
      · simp [UnionKVIter.advanceY_limit, UnionKVIter.advanceX_limit]
      · simp [UnionKVIter.advanceY_limit]
    · rw [if_neg hxy]
      by_cases hx : m.xHasNext
      · rw [if_pos hx]
        simp [UnionKVIter.advanceX_limit]
      · rw [if_neg hx]
        simp [UnionKVIter.advanceY_limit]

theorem MergedKV.mNext_limit (m : MergedKV) :
    ((m.Next).2).limit = m.limit ∨ ((m.Next).2).limit = m.limit - 1 := by
  unfold MergedKV.Next
  by_cases h : m.err.isSome
  · rw [if_pos h]; exact Or.inl rfl
  · rw [if_neg h]
    right
    by_cases hxy : m.xHasNext && m.yHasNext
    · rw [if_pos hxy]
      by_cases hc : bytesCompare m.xNextK m.yNextK ≠ Ordering.gt
      · rw [if_pos hc]
        simp [MergedKV.mAdvanceX_limit]
      · rw [if_neg hc]
        simp [MergedKV.mAdvanceY_limit]
    · rw [if_neg hxy]
      by_cases hx : m.xHasNext
      · rw [if_pos hx]
        simp [MergedKV.mAdvanceX_limit]
      · rw [if_neg hx]
        simp [MergedKV.mAdvanceY_limit]

/-- A freshly built union over error-free sources with limit 0 reports
exhaustion at once. -/
theorem UnionKV_hasNext_zero (x y : KVsrc)
    (hxt : x.terr = none) (hyt : y.terr = none) :
    (UnionKV (some x) (some y) 0).hasNextB = false := by
  obtain ⟨s1, s2, s3, s4, s5, s6, s7, s8⟩ :=
    UnionKVIter.advX_spec ({ x := x, y := y, limit := 0 } : UnionKVIter)
      rfl (by simpa using hxt)
  obtain ⟨t1, t2, t3, t4, t5, t6, t7, t8⟩ :=
    UnionKVIter.advY_spec (({ x := x, y := y, limit := 0 } : UnionKVIter).advanceX)
      s1 (by rw [s6]; simpa using hyt)
  simp only at s8
  simp [UnionKV, KVResult.hasNextB, UnionKVIter.HasNext, t1, t8, s8]

theorem MergeKVS_hasNext_zero (x : KVSsrc) (y : KVsrc)
    (hxt : x.terr = none) (hyt : y.terr = none) :
    (MergeKVS (some x) (some y) 0).hasNextB = false := by
  obtain ⟨s1, s2, s3, s4, s5, s6, s7, s8⟩ :=
    MergedKV.mAdvX_spec ({ x := x, y := y, limit := 0 } : MergedKV)
      rfl (by simpa using hxt)
  obtain ⟨t1, t2, t3, t4, t5, t6, t7, t8⟩ :=
    MergedKV.mAdvY_spec (({ x := x, y := y, limit := 0 } : MergedKV).advanceX)
      s1 (by rw [s6]; simpa using hyt)
  simp only at s8
  simp [MergeKVS, KVSResult.hasNextB, MergedKV.HasNext, t1, t8, s8]

/-! ## Close forwarding (`Close` methods of the composites) -/

/-- `Close` on a base pair source that implements `Closer`. -/
def KVsrc.Close (s : KVsrc) : KVsrc := { s with closed := s.closed + 1 }

/-- `Close` on a base triple source that implements `Closer`. -/
def KVSsrc.Close (s : KVSsrc) : KVSsrc := { s with closed := s.closed + 1 }

/-- Composition trees of the combinators over base sources: each inner
node stands for the corresponding struct (`UnionKVIter`, `MergedKV`,
`WrapKVSIter`, `WrapKVIter`, `TransformKV2U64Iter`) holding its child
streams, used to state close-forwarding through arbitrarily deep
compositions. -/
inductive STree where
  | baseKV (s : KVsrc)
  | baseKVS (s : KVSsrc)
  | unionNode (x y : STree)
  | mergedNode (x y : STree)
  | wrapKVSNode (y : STree)
  | wrapKVNode (x : STree)
  | transformNode (it : STree)
deriving Repr

/-- The `Close` methods, as written in the source: each composite's
`Close` forwards to every child that implements `Closer` — every
composite child does (the structs all have `Close` methods), a base
child only when `closable` (the Go type assertion `.(Closer)`). -/
def STree.close : STree → STree
  | .baseKV s => if s.closable then .baseKV s.Close else .baseKV s
  | .baseKVS s => if s.closable then .baseKVS s.Close else .baseKVS s
  | .unionNode x y => .unionNode x.close y.close
  | .mergedNode x y => .mergedNode x.close y.close
  | .wrapKVSNode y => .wrapKVSNode y.close
  | .wrapKVNode x => .wrapKVNode x.close
  | .transformNode it => .transformNode it.close

/-- `closed` counters of the base sources, left to right. -/
def STree.baseClosedCounts : STree → List Nat
  | .baseKV s => [s.closed]
  | .baseKVS s => [s.closed]
  | .unionNode x y => x.baseClosedCounts ++ y.baseClosedCounts
  | .mergedNode x y => x.baseClosedCounts ++ y.baseClosedCounts
  | .wrapKVSNode y => y.baseClosedCounts
  | .wrapKVNode x => x.baseClosedCounts
  | .transformNode it => it.baseClosedCounts

/-- `closable` capability flags of the base sources, left to right. -/
def STree.baseClosables : STree → List Bool
  | .baseKV s => [s.closable]
  | .baseKVS s => [s.closable]
  | .unionNode x y => x.baseClosables ++ y.baseClosables
  | .mergedNode x y => x.baseClosables ++ y.baseClosables
  | .wrapKVSNode y => y.baseClosables
  | .wrapKVNode x => x.baseClosables
  | .transformNode it => it.baseClosables

theorem STree.closables_length : ∀ t : STree,
    t.baseClosables.length = t.baseClosedCounts.length := by
  intro t
  induction t with
  | baseKV s => rfl
  | baseKVS s => rfl
  | unionNode x y ihx ihy => simp [baseClosables, baseClosedCounts, ihx, ihy]
  | mergedNode x y ihx ihy => simp [baseClosables, baseClosedCounts, ihx, ihy]
  | wrapKVSNode y ihy => simp [baseClosables, baseClosedCounts, ihy]
  | wrapKVNode x ihx => simp [baseClosables, baseClosedCounts, ihx]
  | transformNode it ih => simp [baseClosables, baseClosedCounts, ih]

/-- C9: one `Close` on (the root of) any composition of the combinators
forwards `Close` through every level: every base stream that implements
the `Closer` capability is closed exactly once (its `closed` counter
rises by one), a base stream that does not implement it is left
untouched (no failure), and no capability flag changes. -/
theorem claim_C9 : ∀ t : STree,
    (t.close).baseClosables = t.baseClosables ∧
    (t.close).baseClosedCounts =
      List.zipWith (fun b c => if b then c + 1 else c)
        t.baseClosables t.baseClosedCounts := by
  intro t
  induction t with
  | baseKV s =>
    by_cases h : s.closable = true
    · simp [STree.close, h, STree.baseClosables, STree.baseClosedCounts, KVsrc.Close]
    · simp only [Bool.not_eq_true] at h
      simp [STree.close, h, STree.baseClosables, STree.baseClosedCounts]
  | baseKVS s =>
    by_cases h : s.closable = true
    · simp [STree.close, h, STree.baseClosables, STree.baseClosedCounts, KVSsrc.Close]
    · simp only [Bool.not_eq_true] at h
      simp [STree.close, h, STree.baseClosables, STree.baseClosedCounts]
  | unionNode x y ihx ihy =>
    refine ⟨?_, ?_⟩
    · simp [STree.close, STree.baseClosables, ihx.1, ihy.1]
    · simp only [STree.close, STree.baseClosedCounts, STree.baseClosables, ihx.2, ihy.2]
      rw [List.zipWith_append _ _ _ _ _ (STree.closables_length x)]
  | mergedNode x y ihx ihy =>
    refine ⟨?_, ?_⟩
    · simp [STree.close, STree.baseClosables, ihx.1, ihy.1]
    · simp only [STree.close, STree.baseClosedCounts, STree.baseClosables, ihx.2, ihy.2]
      rw [List.zipWith_append _ _ _ _ _ (STree.closables_length x)]
  | wrapKVSNode y ihy =>
    exact ⟨by simp [STree.close, STree.baseClosables, ihy.1],
      by simp [STree.close, STree.baseClosedCounts, STree.baseClosables, ihy.2]⟩
  | wrapKVNode x ihx =>
    exact ⟨by simp [STree.close, STree.baseClosables, ihx.1],
      by simp [STree.close, STree.baseClosedCounts, STree.baseClosables, ihx.2]⟩
  | transformNode it ih =>
    exact ⟨by simp [STree.close, STree.baseClosables, ih.1],
      by simp [STree.close, STree.baseClosedCounts, STree.baseClosables, ih.2]⟩

/-! ## Remaining helpers for the claim statements -/

theorem limitTake_pairwise {α : Type} {R : α → α → Prop} {L : Int} {l : List α}
    (h : l.Pairwise R) : (limitTake L l).Pairwise R := by
  unfold limitTake
  split_ifs
  · exact h
  · exact List.Pairwise.sublist (List.take_sublist _ _) h

theorem sortedKeysLe_of_sortedKeysLt {α : Type} {l : List (Bytes × α)}
    (h : sortedKeysLt l) : sortedKeysLe l :=
  List.Pairwise.imp (fun hab => bLe_of_bLt hab) h

theorem WrapKVIter.wkAdvance_cons {m : WrapKVIter} {k v : Bytes} {st : Nat}
    {rest : List (Bytes × Bytes × Nat)}
    (he : m.err = none) (hi : m.x.items = (k, v, st) :: rest) :
    m.advance =
      { m with x := { m.x with items := rest, calls := m.x.calls + 1 + 1 },
               xHasNext := true, xNextK := k, xNextV := v, err := none } := by
  simp [advance, KVSsrc.HasNext, KVSsrc.Next, KVSsrc.hasNextB, he, hi]

/-- The `x` child's state inside a constructed union stream, when the
constructor produced a `UnionKVIter`. -/
def KVResult.unionXsrc : KVResult → Option KVsrc
  | .unionKV m => some m.x
  | _ => none

/-- A sample mapping for the transform wrapper: fails with error 7 on
key `[1]`, succeeds with 5 on any other key. -/
def tfSample : Bytes → Bytes → Nat × Option Nat :=
  fun k _ => if k = [1] then (0, some 7) else (5, none)

/-! ## The claims -/

/-- C1: for error-free pair streams, each strictly key-sorted, and a key
`k` present in both, `UnionKV(x, y, limit)` with an unconstrained
(negative) limit emits exactly one pair with key `k`, and its value is
`x`'s value for `k` (`x` shadows `y` on equal keys). -/
theorem claim_C1 (x y : KVsrc) (L : Int) (fuel : Nat) (k vx : Bytes)
    (hxe : x.terr = none) (hye : y.terr = none) (hL : L < 0)
    (hfuel : x.items.length + y.items.length ≤ fuel)
    (hxs : sortedKeysLt x.items) (hys : sortedKeysLt y.items)
    (hkx : (k, vx) ∈ x.items) (hky : k ∈ keysOf y.items) :
    filterKey k ((UnionKV (some x) (some y) L).collect fuel) = [(k, vx)] := by
  rw [UnionKV_collect x y L fuel hxe hye hfuel]
  unfold limitTake
  rw [if_pos hL]
  exact filterKey_single (unionList_sorted hxs hys) (unionList_mem_left hkx)

theorem claim_C1_witness :
    filterKey [2] ((UnionKV (some ⟨[([1], [10]), ([2], [20])], none, 0, true, 0⟩)
        (some ⟨[([2], [99]), ([3], [30])], none, 0, true, 0⟩) (-1)).collect 4) =
      [([2], [20])] :=
  claim_C1 ⟨[([1], [10]), ([2], [20])], none, 0, true, 0⟩
    ⟨[([2], [99]), ([3], [30])], none, 0, true, 0⟩ (-1) 4 [2] [20]
    rfl rfl (by decide) (by decide) (by decide) (by decide) (by decide) (by decide)

/-- C2: for an error-free, strictly key-sorted triple stream `x` and pair
stream `y` and a key `k` present in both, `MergeKVS(x, y, limit)` with an
unconstrained limit emits exactly two entries with key `k`: `x`'s triple
(with `x`'s step), immediately followed by `y`'s pair lifted with step 0;
no other emitted entry carries `k`. -/
theorem claim_C2 (x : KVSsrc) (y : KVsrc) (L : Int) (fuel : Nat)
    (k xv : Bytes) (sx : Nat) (yv : Bytes)
    (hxe : x.terr = none) (hye : y.terr = none) (hL : L < 0)
    (hfuel : x.items.length + y.items.length ≤ fuel)
    (hxs : sortedKeysLt x.items) (hys : sortedKeysLt y.items)
    (hkx : (k, xv, sx) ∈ x.items) (hky : (k, yv) ∈ y.items) :
    ∃ l1 l2, (MergeKVS (some x) (some y) L).collect fuel =
        l1 ++ (k, xv, sx) :: (k, yv, 0) :: l2 ∧
      (∀ p ∈ l1, p.1 ≠ k) ∧ (∀ p ∈ l2, p.1 ≠ k) := by
  rw [MergeKVS_collect x y L fuel hxe hye hfuel]
  unfold limitTake
  rw [if_pos hL]
  exact mergeList_dup_split hxs hys hkx hky

theorem claim_C2_witness :
    ∃ l1 l2, (MergeKVS (some ⟨[([1], [1], 10), ([2], [2], 20), ([4], [4], 40)], none, 0, true, 0⟩)
        (some ⟨[([2], [20]), ([3], [30])], none, 0, true, 0⟩) (-1)).collect 10 =
        l1 ++ ([2], [2], 20) :: ([2], [20], 0) :: l2 ∧
      (∀ p ∈ l1, p.1 ≠ [2]) ∧ (∀ p ∈ l2, p.1 ≠ [2]) :=
  claim_C2 ⟨[([1], [1], 10), ([2], [2], 20), ([4], [4], 40)], none, 0, true, 0⟩
    ⟨[([2], [20]), ([3], [30])], none, 0, true, 0⟩ (-1) 10 [2] [2] 20 [20]
    rfl rfl (by decide) (by decide) (by decide) (by decide) (by decide) (by decide)

/-- C3: with both inputs sorted strictly ascending by byte-lexicographic
key (the spec's precondition — not verified by the merges), for any
limit the key sequence emitted by `UnionKV` is strictly ascending and the
key sequence emitted by `MergeKVS` is ascending (non-strictly: a shared
key repeats). -/
theorem claim_C3 (x y : KVsrc) (x3 : KVSsrc) (y2 : KVsrc) (L L2 : Int) (fuel : Nat)
    (hxe : x.terr = none) (hye : y.terr = none)
    (h3e : x3.terr = none) (hy2e : y2.terr = none)
    (hfuel : x.items.length + y.items.length ≤ fuel)
    (hfuel2 : x3.items.length + y2.items.length ≤ fuel)
    (hxs : sortedKeysLt x.items) (hys : sortedKeysLt y.items)
    (h3s : sortedKeysLt x3.items) (hy2s : sortedKeysLt y2.items) :
    sortedKeysLt ((UnionKV (some x) (some y) L).collect fuel) ∧
    sortedKeysLe ((MergeKVS (some x3) (some y2) L2).collect fuel) := by
  rw [UnionKV_collect x y L fuel hxe hye hfuel]
  rw [MergeKVS_collect x3 y2 L2 fuel h3e hy2e hfuel2]
  constructor
  · exact limitTake_pairwise (unionList_sorted hxs hys)
  · exact limitTake_pairwise
      (mergeList_sorted (sortedKeysLe_of_sortedKeysLt h3s)
        (sortedKeysLe_of_sortedKeysLt hy2s))

theorem claim_C3_witness :
    sortedKeysLt ((UnionKV (some ⟨[([1], [10]), ([2], [20])], none, 0, true, 0⟩)
        (some ⟨[([2], [99]), ([3], [30])], none, 0, true, 0⟩) 2).collect 4) ∧
    sortedKeysLe ((MergeKVS (some ⟨[([2], [2], 20)], none, 0, true, 0⟩)
        (some ⟨[([2], [20]), ([3], [30])], none, 0, true, 0⟩) (-1)).collect 4) :=
  claim_C3 ⟨[([1], [10]), ([2], [20])], none, 0, true, 0⟩
    ⟨[([2], [99]), ([3], [30])], none, 0, true, 0⟩
    ⟨[([2], [2], 20)], none, 0, true, 0⟩
    ⟨[([2], [20]), ([3], [30])], none, 0, true, 0⟩ 2 (-1) 4
    rfl rfl rfl rfl (by decide) (by decide) (by decide) (by decide) (by decide)
    (by decide)

/-- C4: for limit `L > 0` over error-free sorted inputs, `UnionKV`
emits exactly `min L (number of distinct keys of the union)` pairs and
`MergeKVS` emits exactly `min L (total entries of both sides)` triples;
and a stream constructed with limit 0 reports exhaustion immediately. -/
theorem claim_C4 (x y : KVsrc) (x3 : KVSsrc) (y2 : KVsrc) (L : Int) (fuel : Nat)
    (hxe : x.terr = none) (hye : y.terr = none)
    (h3e : x3.terr = none) (hy2e : y2.terr = none)
    (hL : 0 < L)
    (hfuel : x.items.length + y.items.length ≤ fuel)
    (hfuel2 : x3.items.length + y2.items.length ≤ fuel)
    (hxs : sortedKeysLt x.items) (hys : sortedKeysLt y.items) :
    ((UnionKV (some x) (some y) L).collect fuel).length =
      min L.toNat ((keysOf x.items).toFinset ∪ (keysOf y.items).toFinset).card ∧
    ((MergeKVS (some x3) (some y2) L).collect fuel).length =
      min L.toNat (x3.items.length + y2.items.length) ∧
    (UnionKV (some x) (some y) 0).hasNextB = false ∧
    (MergeKVS (some x3) (some y2) 0).hasNextB = false := by
  have hnl : ¬ (L < 0) := by omega
  refine ⟨?_, ?_, UnionKV_hasNext_zero x y hxe hye, MergeKVS_hasNext_zero x3 y2 h3e hy2e⟩
  · rw [UnionKV_collect x y L fuel hxe hye hfuel]
    unfold limitTake
    rw [if_neg hnl, List.length_take, unionList_length hxs hys]
  · rw [MergeKVS_collect x3 y2 L fuel h3e hy2e hfuel2]
    unfold limitTake
    rw [if_neg hnl, List.length_take, mergeList_length]

theorem claim_C4_witness :
    ((UnionKV (some ⟨[([1], [10]), ([2], [20])], none, 0, true, 0⟩)
        (some ⟨[([2], [99]), ([3], [30])], none, 0, true, 0⟩) 2).collect 4).length =
      min (Int.toNat 2)
        ((keysOf [([1], [10]), ([2], [20])]).toFinset ∪
          (keysOf [([2], [99]), ([3], [30])]).toFinset).card ∧
    ((MergeKVS (some ⟨[([2], [2], 20)], none, 0, true, 0⟩)
        (some ⟨[([2], [20]), ([3], [30])], none, 0, true, 0⟩) 2).collect 4).length =
      min (Int.toNat 2) (1 + 2) ∧
    (UnionKV (some ⟨[([1], [10]), ([2], [20])], none, 0, true, 0⟩)
        (some ⟨[([2], [99]), ([3], [30])], none, 0, true, 0⟩) 0).hasNextB = false ∧
    (MergeKVS (some ⟨[([2], [2], 20)], none, 0, true, 0⟩)
        (some ⟨[([2], [20]), ([3], [30])], none, 0, true, 0⟩) 0).hasNextB = false :=
  claim_C4 ⟨[([1], [10]), ([2], [20])], none, 0, true, 0⟩
    ⟨[([2], [99]), ([3], [30])], none, 0, true, 0⟩
    ⟨[([2], [2], 20)], none, 0, true, 0⟩
    ⟨[([2], [20]), ([3], [30])], none, 0, true, 0⟩ 2 4
    rfl rfl rfl rfl (by decide) (by decide) (by decide) (by decide) (by decide)

/-- C5 counterexample: `UnionKV(x, nil, 1)` for a 2-element `x` returns
`x` unchanged — both elements are emitted, not `x` truncated to 1. -/
theorem claim_C5_cex :
    (UnionKV (some ⟨[([1], [10]), ([2], [20])], none, 0, true, 0⟩) none 1).collect 5 ≠
      ([([1], [10]), ([2], [20])] : List (Bytes × Bytes)).take 1 := by
  decide

/-- C5 (amended): a missing side makes the constructor return the other
stream unchanged — the limit is ignored, every element is emitted:
`UnionKV(x, nil, n)` yields all of `x`; `UnionKV(nil, y, n)` yields all
of `y`; `UnionKV(nil, nil, n)` is empty; `MergeKVS(x, nil, n)` yields all
of `x`; `MergeKVS(nil, y, n)` yields all of `y` lifted to triples with
step 0 (also ignoring the limit); `MergeKVS(nil, nil, n)` is empty. -/
theorem claim_C5 (x : KVsrc) (y : KVsrc) (x3 : KVSsrc) (L : Int) (fuel : Nat)
    (hxe : x.terr = none) (hye : y.terr = none) (h3e : x3.terr = none)
    (hfx : x.items.length ≤ fuel) (hfy : y.items.length ≤ fuel)
    (hf3 : x3.items.length ≤ fuel) :
    (UnionKV (some x) none L).collect fuel = x.items ∧
    (UnionKV none (some y) L).collect fuel = y.items ∧
    (UnionKV none none L).collect fuel = [] ∧
    (MergeKVS (some x3) none L).collect fuel = x3.items ∧
    (MergeKVS none (some y) L).collect fuel = y.items.map (fun p => (p.1, p.2, 0)) ∧
    (MergeKVS none none L).collect fuel = [] := by
  refine ⟨?_, ?_, rfl, ?_, ?_, rfl⟩
  · simp only [UnionKV, KVResult.collect]
    exact KVsrc.run_items fuel x hxe hfx
  · simp only [UnionKV, KVResult.collect]
    exact KVsrc.run_items fuel y hye hfy
  · simp only [MergeKVS, KVSResult.collect]
    exact KVSsrc.runS_items fuel x3 h3e hf3
  · simp only [MergeKVS, WrapKVS, KVSResult.collect]
    obtain ⟨s1, s2, s3, s4⟩ :=
      WrapKVSIter.adv_spec ({ y := y } : WrapKVSIter) rfl (by simpa using hye)
    simp only at s3
    have hInv : (({ y := y } : WrapKVSIter).advance).Inv := ⟨s1, s2, s4⟩
    have hrun := WrapKVSIter.wsRun_eq fuel (({ y := y } : WrapKVSIter).advance) hInv
      (by rw [s3]; exact hfy)
    rw [hrun, s3]

theorem claim_C5_witness :
    (UnionKV (some ⟨[([1], [10]), ([2], [20])], none, 0, true, 0⟩) none 1).collect 5 =
      [([1], [10]), ([2], [20])] ∧
    (UnionKV none (some ⟨[([3], [30])], none, 0, true, 0⟩) 1).collect 5 = [([3], [30])] ∧
    (UnionKV none none 1).collect 5 = [] ∧
    (MergeKVS (some ⟨[([4], [40], 9)], none, 0, true, 0⟩) none 1).collect 5 =
      [([4], [40], 9)] ∧
    (MergeKVS none (some ⟨[([3], [30])], none, 0, true, 0⟩) 1).collect 5 =
      ([([3], [30])] : List (Bytes × Bytes)).map (fun p => (p.1, p.2, 0)) ∧
    (MergeKVS none none 1).collect 5 = [] :=
  claim_C5 ⟨[([1], [10]), ([2], [20])], none, 0, true, 0⟩
    ⟨[([3], [30])], none, 0, true, 0⟩
    ⟨[([4], [40], 9)], none, 0, true, 0⟩ 1 5
    rfl rfl rfl (by decide) (by decide) (by decide)

/-- C6: once an error is latched (`err` set from a child's pull), every
subsequent `Next` of `UnionKVIter`, `MergedKV`, `WrapKVSIter` and
`WrapKVIter` returns that same error with nil key/value (and step 0),
leaving the whole composite — including both child streams and their
call counters — untouched, while `HasNext` keeps reporting `true`; and
the latch itself: when an exhausted child holds a pending error,
`advanceX` stores it into `err`. -/
theorem claim_C6 (e : Nat) (mu : UnionKVIter) (mm : MergedKV)
    (ws : WrapKVSIter) (wk : WrapKVIter) (m0 : UnionKVIter) :
    (mu.err = some e → mu.Next = (([], [], some e), mu) ∧ mu.HasNext = true) ∧
    (mm.err = some e → mm.Next = (([], [], 0, some e), mm) ∧ mm.HasNext = true) ∧
    (ws.err = some e → ws.Next = (([], [], 0, some e), ws) ∧ ws.HasNext = true) ∧
    (wk.err = some e → wk.Next = (([], [], some e), wk) ∧ wk.HasNext = true) ∧
    (m0.err = none → m0.x.items = [] → m0.x.terr = some e →
      (m0.advanceX).err = some e) := by
  refine ⟨?_, ?_, ?_, ?_, ?_⟩
  · intro h
    constructor
    · simp [UnionKVIter.Next, h]
    · simp [UnionKVIter.HasNext, h]
  · intro h
    constructor
    · simp [MergedKV.Next, h]
    · simp [MergedKV.HasNext, h]
  · intro h
    constructor
    · simp [WrapKVSIter.Next, h]
    · simp [WrapKVSIter.HasNext, h]
  · intro h
    constructor
    · simp [WrapKVIter.Next, h]
    · simp [WrapKVIter.HasNext, h]
  · intro he hi ht
    simp [UnionKVIter.advanceX, KVsrc.HasNext, KVsrc.hasNextB, KVsrc.Next, he, hi, ht]

/-- Sample iterators with a latched error, and one whose child holds a
pending error. -/
def uErrSample : UnionKVIter :=
  { x := ⟨[], none, 0, true, 0⟩, y := ⟨[], none, 0, true, 0⟩, limit := -1, err := some 7 }

def mErrSample : MergedKV :=
  { x := ⟨[], none, 0, true, 0⟩, y := ⟨[], none, 0, true, 0⟩, limit := -1, err := some 7 }

def wsErrSample : WrapKVSIter := { y := ⟨[], none, 0, true, 0⟩, err := some 7 }

def wkErrSample : WrapKVIter := { x := ⟨[], none, 0, true, 0⟩, err := some 7 }

def uLatchSample : UnionKVIter :=
  { x := ⟨[], some 7, 0, true, 0⟩, y := ⟨[], none, 0, true, 0⟩, limit := -1 }

theorem claim_C6_witness :
    (uErrSample.Next = (([], [], some 7), uErrSample) ∧ uErrSample.HasNext = true) ∧
    (mErrSample.Next = (([], [], 0, some 7), mErrSample) ∧ mErrSample.HasNext = true) ∧
    (wsErrSample.Next = (([], [], 0, some 7), wsErrSample) ∧ wsErrSample.HasNext = true) ∧
    (wkErrSample.Next = (([], [], some 7), wkErrSample) ∧ wkErrSample.HasNext = true) ∧
    (uLatchSample.advanceX).err = some 7 := by
  have h := claim_C6 7 uErrSample mErrSample wsErrSample wkErrSample uLatchSample
  exact ⟨h.1 rfl, h.2.1 rfl, h.2.2.1 rfl, h.2.2.2.1 rfl, h.2.2.2.2 rfl rfl rfl⟩

/-- C7 counterexample: with `tfSample` failing (error 7) on the first
element only, the second `Next` of the transform wrapper does not return
the first pull's error — the failure is not latched and the wrapper kept
pulling its child. -/
theorem claim_C7_cex :
    ((⟨⟨[([1], [1]), ([2], [2])], none, 0, true, 0⟩, tfSample⟩ :
        TransformKV2U64Iter).Next).1 = (0, some 7) ∧
    ((((⟨⟨[([1], [1]), ([2], [2])], none, 0, true, 0⟩, tfSample⟩ :
        TransformKV2U64Iter).Next).2).Next).1 ≠ (0, some 7) := by
  constructor
  · decide
  · decide

/-- C7 (amended): a mapping failure is returned for the pull on which it
occurs but is not latched — `TransformKV2U64Iter` has no error state, so
the following `Next` pulls the next element from the child and applies
the mapping to it, returning its (possibly successful) result. -/
theorem claim_C7 (s : KVsrc) (tf : Bytes → Bytes → Nat × Option Nat)
    (k1 v1 k2 v2 : Bytes) (rest : List (Bytes × Bytes)) (e u : Nat)
    (hi : s.items = (k1, v1) :: (k2, v2) :: rest)
    (h1 : tf k1 v1 = (0, some e)) (h2 : tf k2 v2 = (u, none)) :
    ((⟨s, tf⟩ : TransformKV2U64Iter).Next).1 = (0, some e) ∧
    ((((⟨s, tf⟩ : TransformKV2U64Iter).Next).2).Next).1 = (u, none) := by
  constructor
  · simp [TransformKV2U64Iter.Next, KVsrc.Next, hi, h1]
  · simp [TransformKV2U64Iter.Next, KVsrc.Next, hi, h1, h2]

theorem claim_C7_witness :
    ((⟨⟨[([1], [9]), ([2], [8])], none, 0, true, 0⟩, tfSample⟩ :
        TransformKV2U64Iter).Next).1 = (0, some 7) ∧
    ((((⟨⟨[([1], [9]), ([2], [8])], none, 0, true, 0⟩, tfSample⟩ :
        TransformKV2U64Iter).Next).2).Next).1 = (5, none) :=
  claim_C7 ⟨[([1], [9]), ([2], [8])], none, 0, true, 0⟩ tfSample
    [1] [9] [2] [8] [] 7 5 rfl (by decide) (by decide)

/-- C8 counterexample: constructing `UnionKV` changes the `x` child's
read state — the constructor pulls `HasNext`/`Next` on it to prime the
lookahead, so the child inside the result differs from the child that
was passed in. -/
theorem claim_C8_cex :
    (UnionKV (some ⟨[([1], [10])], none, 0, true, 0⟩)
        (some ⟨[([2], [20])], none, 0, true, 0⟩) (-1)).unionXsrc ≠
      some ⟨[([1], [10])], none, 0, true, 0⟩ := by
  decide

/-- C8 (amended): construction is eager by exactly one element per
child: each constructor (`UnionKV`, `MergeKVS`, `WrapKVS`, `WrapKV`)
invokes `HasNext` and — an item being pending — `Next` once on each
present child (two calls per child), buffering the child's first pair as
the lookahead; the rest of the child stays unread until the consumer
pulls the composite. -/
theorem claim_C8 (x y : KVsrc) (x3 : KVSsrc) (L : Int)
    (xk xv yk yv k3 v3 : Bytes) (s3 : Nat)
    (xr yr : List (Bytes × Bytes)) (r3 : List (Bytes × Bytes × Nat))
    (hxi : x.items = (xk, xv) :: xr) (hxt : x.terr = none)
    (hyi : y.items = (yk, yv) :: yr) (hyt : y.terr = none)
    (h3i : x3.items = (k3, v3, s3) :: r3) (h3t : x3.terr = none) :
    (∃ m : UnionKVIter, UnionKV (some x) (some y) L = .unionKV m ∧
      m.x.items = xr ∧ m.x.calls = x.calls + 2 ∧ m.xHasNext = true ∧
      m.xNextK = xk ∧ m.xNextV = xv ∧
      m.y.items = yr ∧ m.y.calls = y.calls + 2 ∧ m.yHasNext = true ∧
      m.yNextK = yk ∧ m.yNextV = yv) ∧
    (∃ m : MergedKV, MergeKVS (some x3) (some y) L = .merged m ∧
      m.x.items = r3 ∧ m.x.calls = x3.calls + 2 ∧ m.xHasNext = true ∧
      m.xNextK = k3 ∧ m.xNextV = v3 ∧ m.xStep = s3 ∧
      m.y.items = yr ∧ m.y.calls = y.calls + 2 ∧ m.yHasNext = true) ∧
    (∃ w : WrapKVSIter, WrapKVS (some y) = .wrapKVS w ∧
      w.y.items = yr ∧ w.y.calls = y.calls + 2 ∧ w.yHasNext = true ∧
      w.yNextK = yk ∧ w.yNextV = yv) ∧
    (∃ w : WrapKVIter, WrapKV (some x3) = .wrapKV w ∧
      w.x.items = r3 ∧ w.x.calls = x3.calls + 2 ∧ w.xHasNext = true ∧
      w.xNextK = k3 ∧ w.xNextV = v3) := by
  refine ⟨?_, ?_, ?_, ?_⟩
  · have e1 := UnionKVIter.advanceX_cons
      (m := ({ x := x, y := y, limit := L } : UnionKVIter)) rfl (by simpa using hxi)
    have e2 := UnionKVIter.advanceY_cons
      (m := ({ x := x, y := y, limit := L } : UnionKVIter).advanceX)
      (by rw [e1]) (by rw [e1]; simpa using hyi)
    refine ⟨({ x := x, y := y, limit := L } : UnionKVIter).advanceX.advanceY, rfl, ?_⟩
    rw [e2, e1]
    simp
  · have e1 := MergedKV.mAdvanceX_cons
      (m := ({ x := x3, y := y, limit := L } : MergedKV)) rfl (by simpa using h3i)
    have e2 := MergedKV.mAdvanceY_cons
      (m := ({ x := x3, y := y, limit := L } : MergedKV).advanceX)
      (by rw [e1]) (by rw [e1]; simpa using hyi)
    refine ⟨({ x := x3, y := y, limit := L } : MergedKV).advanceX.advanceY, rfl, ?_⟩
    rw [e2, e1]
    simp
  · have e1 := WrapKVSIter.wsAdvance_cons
      (m := ({ y := y } : WrapKVSIter)) rfl (by simpa using hyi)
    refine ⟨({ y := y } : WrapKVSIter).advance, rfl, ?_⟩
    rw [e1]
    simp
  · have e1 := WrapKVIter.wkAdvance_cons
      (m := ({ x := x3 } : WrapKVIter)) rfl (by simpa using h3i)
    refine ⟨({ x := x3 } : WrapKVIter).advance, rfl, ?_⟩
    rw [e1]
    simp

theorem claim_C8_witness :
    (∃ m : UnionKVIter,
      UnionKV (some ⟨[([1], [10])], none, 0, true, 0⟩)
          (some ⟨[([2], [20])], none, 0, true, 0⟩) (-1) = .unionKV m ∧
      m.x.items = [] ∧ m.x.calls = 0 + 2 ∧ m.xHasNext = true ∧
      m.xNextK = [1] ∧ m.xNextV = [10] ∧
      m.y.items = [] ∧ m.y.calls = 0 + 2 ∧ m.yHasNext = true ∧
      m.yNextK = [2] ∧ m.yNextV = [20]) ∧
    (∃ m : MergedKV,
      MergeKVS (some ⟨[([3], [30], 4)], none, 0, true, 0⟩)
          (some ⟨[([2], [20])], none, 0, true, 0⟩) (-1) = .merged m ∧
      m.x.items = [] ∧ m.x.calls = 0 + 2 ∧ m.xHasNext = true ∧
      m.xNextK = [3] ∧ m.xNextV = [30] ∧ m.xStep = 4 ∧
      m.y.items = [] ∧ m.y.calls = 0 + 2 ∧ m.yHasNext = true) ∧
    (∃ w : WrapKVSIter,
      WrapKVS (some ⟨[([2], [20])], none, 0, true, 0⟩) = .wrapKVS w ∧
      w.y.items = [] ∧ w.y.calls = 0 + 2 ∧ w.yHasNext = true ∧
      w.yNextK = [2] ∧ w.yNextV = [20]) ∧
    (∃ w : WrapKVIter,
      WrapKV (some ⟨[([3], [30], 4)], none, 0, true, 0⟩) = .wrapKV w ∧
      w.x.items = [] ∧ w.x.calls = 0 + 2 ∧ w.xHasNext = true ∧
      w.xNextK = [3] ∧ w.xNextV = [30]) :=
  claim_C8 ⟨[([1], [10])], none, 0, true, 0⟩ ⟨[([2], [20])], none, 0, true, 0⟩
    ⟨[([3], [30], 4)], none, 0, true, 0⟩ (-1)
    [1] [10] [2] [20] [3] [30] 4 [] [] []
    rfl rfl rfl rfl rfl rfl

/-! ## The wrapping 64-bit limit decrement

`UnionKVIter.Next` and `MergedKV.Next` above model the Go statement
`m.limit--` on unbounded integers; this is exact as long as the limit
stays strictly inside the 64-bit `int` range, which covers every run the
other claims concern (a positive or small-negative limit moves away from
the boundary by at most one per emission). Go's `int`, however, wraps:
`math.MinInt64 - 1 == math.MaxInt64`. The variants below take the same
decrement in two's-complement 64-bit arithmetic, which is exact at the
boundary as well. -/

/-- Two's-complement wrap of Go's 64-bit `int`: maps any integer into
`[-2^63, 2^63)`. -/
def wrap64 (n : Int) : Int := (n + 2 ^ 63) % 2 ^ 64 - 2 ^ 63

/-- `UnionKVIter.Next` with the limit decrement `m.limit--` taken in
Go's wrapping 64-bit `int` arithmetic; otherwise identical to
`UnionKVIter.Next`. -/
def UnionKVIter.NextW (m : UnionKVIter) : (Bytes × Bytes × Option Nat) × UnionKVIter :=
  if m.err.isSome then (([], [], m.err), m)
  else
    let m := { m with limit := wrap64 (m.limit - 1) }
    if m.xHasNext && m.yHasNext then
      match bytesCompare m.xNextK m.yNextK with
      | .lt => ((m.xNextK, m.xNextV, m.err), m.advanceX)
      | .eq => ((m.xNextK, m.xNextV, m.err), m.advanceX.advanceY)
      | .gt => ((m.yNextK, m.yNextV, m.err), m.advanceY)
    else if m.xHasNext then
      ((m.xNextK, m.xNextV, m.err), m.advanceX)
    else
      ((m.yNextK, m.yNextV, m.err), m.advanceY)

/-- `MergedKV.Next` with the limit decrement taken in Go's wrapping
64-bit `int` arithmetic; otherwise identical to `MergedKV.Next`. -/
def MergedKV.NextW (m : MergedKV) : (Bytes × Bytes × Nat × Option Nat) × MergedKV :=
  if m.err.isSome then (([], [], 0, m.err), m)
  else
    let m := { m with limit := wrap64 (m.limit - 1) }
    if m.xHasNext && m.yHasNext then
      if bytesCompare m.xNextK m.yNextK ≠ Ordering.gt then
        ((m.xNextK, m.xNextV, m.xStep, m.err), m.advanceX)
      else
        ((m.yNextK, m.yNextV, 0, m.err), m.advanceY)
    else if m.xHasNext then
      ((m.xNextK, m.xNextV, m.xStep, m.err), m.advanceX)
    else
      ((m.yNextK, m.yNextV, 0, m.err), m.advanceY)

theorem wrap64_eq_self {n : Int} (h1 : -(2 ^ 63) ≤ n) (h2 : n < 2 ^ 63) :
    wrap64 n = n := by
  unfold wrap64
  rw [Int.emod_eq_of_lt (by omega) (by omega)]
  omega

theorem wrap64_min : wrap64 (-(2 ^ 63) - 1) = 2 ^ 63 - 1 := by decide

theorem UnionKVIter.nextW_limit (m : UnionKVIter) :
    ((m.NextW).2).limit = m.limit ∨ ((m.NextW).2).limit = wrap64 (m.limit - 1) := by
  unfold UnionKVIter.NextW
  by_cases h : m.err.isSome
  · rw [if_pos h]; exact Or.inl rfl
  · rw [if_neg h]
    right
    by_cases hxy : m.xHasNext && m.yHasNext
    · rw [if_pos hxy]
      rcases hc : bytesCompare m.xNextK m.yNextK with _ | _ | _ <;> simp only [hc]
      · simp [UnionKVIter.advanceX_limit]
      · simp [UnionKVIter.advanceY_limit, UnionKVIter.advanceX_limit]
      · simp [UnionKVIter.advanceY_limit]
    · rw [if_neg hxy]
      by_cases hx : m.xHasNext
      · rw [if_pos hx]
        simp [UnionKVIter.advanceX_limit]
      · rw [if_neg hx]
        simp [UnionKVIter.advanceY_limit]

theorem MergedKV.mNextW_limit (m : MergedKV) :
    ((m.NextW).2).limit = m.limit ∨ ((m.NextW).2).limit = wrap64 (m.limit - 1) := by
  unfold MergedKV.NextW
  by_cases h : m.err.isSome
  · rw [if_pos h]; exact Or.inl rfl
  · rw [if_neg h]
    right
    by_cases hxy : m.xHasNext && m.yHasNext
    · rw [if_pos hxy]
      by_cases hc : bytesCompare m.xNextK m.yNextK ≠ Ordering.gt
      · rw [if_pos hc]
        simp [MergedKV.mAdvanceX_limit]
      · rw [if_neg hc]
        simp [MergedKV.mAdvanceY_limit]
    · rw [if_neg hxy]
      by_cases hx : m.xHasNext
      · rw [if_pos hx]
        simp [MergedKV.mAdvanceX_limit]
      · rw [if_neg hx]
        simp [MergedKV.mAdvanceY_limit]

/-- A union iterator at the Go `int` minimum limit `-2^63`, with a
buffered element on each side (both children already exhausted behind
the buffer). -/
def uMinSample : UnionKVIter :=
  { x := ⟨[], none, 0, true, 0⟩, y := ⟨[], none, 0, true, 0⟩,
    xHasNext := true, yHasNext := true, xNextK := [1], xNextV := [1],
    yNextK := [2], yNextV := [2], limit := -(2 ^ 63), err := none }

/-- C10 counterexample: the limit does not stay negative. At the Go
`int` minimum `-2^63` the decrement wraps: one pull of the union
iterator leaves the limit at `2^63 - 1`, which is not negative. -/
theorem claim_C10_cex :
    uMinSample.limit < 0 ∧
    ((uMinSample.NextW).2).limit = 2 ^ 63 - 1 ∧
    ¬ (((uMinSample.NextW).2).limit < 0) := by
  refine ⟨by decide, ?_, ?_⟩ <;> decide

/-- C10 (amended): a strictly negative in-range limit keeps the stream
enabled on the pull it gates, but it does not stay negative forever:
`HasNext` reports availability exactly when a side has a buffered
element or an error is pending (it only tests `limit ≠ 0`), and `Next`
takes the decrement in Go's wrapping 64-bit arithmetic, so from any
in-range negative limit the next limit is nonzero and again in range —
it is `limit - 1` except at `-2^63`, where it wraps to `2^63 - 1` (no
longer negative). A negative limit `L` therefore acts as the "no limit"
sentinel for the first `2^64 + L` emissions, not unconditionally. -/
theorem claim_C10 (mu : UnionKVIter) (mm : MergedKV)
    (hUr : -(2 ^ 63) ≤ mu.limit) (hU : mu.limit < 0)
    (hMr : -(2 ^ 63) ≤ mm.limit) (hM : mm.limit < 0) :
    mu.HasNext = (mu.err.isSome || mu.xHasNext || mu.yHasNext) ∧
    ((mu.NextW).2).limit ≠ 0 ∧
    -(2 ^ 63) ≤ ((mu.NextW).2).limit ∧ ((mu.NextW).2).limit < 2 ^ 63 ∧
    mm.HasNext = (mm.err.isSome || mm.xHasNext || mm.yHasNext) ∧
    ((mm.NextW).2).limit ≠ 0 ∧
    -(2 ^ 63) ≤ ((mm.NextW).2).limit ∧ ((mm.NextW).2).limit < 2 ^ 63 := by
  have hBU : (mu.limit != 0) = true := by simp; omega
  have hBM : (mm.limit != 0) = true := by simp; omega
  have hkey : ∀ L : Int, -(2 ^ 63) ≤ L → L < 0 →
      wrap64 (L - 1) ≠ 0 ∧ -(2 ^ 63) ≤ wrap64 (L - 1) ∧ wrap64 (L - 1) < 2 ^ 63 := by
    intro L h1 h2
    by_cases hmin : L = -(2 ^ 63)
    · subst hmin
      rw [wrap64_min]
      norm_num
    · have he : wrap64 (L - 1) = L - 1 := wrap64_eq_self (by omega) (by omega)
      rw [he]
      refine ⟨by omega, by omega, by omega⟩
  have hwU := UnionKVIter.nextW_limit mu
  have hwM := MergedKV.mNextW_limit mm
  refine ⟨?_, ?_, ?_, ?_, ?_, ?_, ?_, ?_⟩
  · simp [UnionKVIter.HasNext, hBU, Bool.or_assoc]
  · rcases hwU with h | h
    · omega
    · rw [h]; exact (hkey mu.limit hUr hU).1
  · rcases hwU with h | h
    · omega
    · rw [h]; exact (hkey mu.limit hUr hU).2.1
  · rcases hwU with h | h
    · omega
    · rw [h]; exact (hkey mu.limit hUr hU).2.2
  · simp [MergedKV.HasNext, hBM, Bool.or_assoc]
  · rcases hwM with h | h
    · omega
    · rw [h]; exact (hkey mm.limit hMr hM).1
  · rcases hwM with h | h
    · omega
    · rw [h]; exact (hkey mm.limit hMr hM).2.1
  · rcases hwM with h | h
    · omega
    · rw [h]; exact (hkey mm.limit hMr hM).2.2

theorem claim_C10_witness :
    uErrSample.HasNext = (uErrSample.err.isSome || uErrSample.xHasNext ||
      uErrSample.yHasNext) ∧
    ((uErrSample.NextW).2).limit ≠ 0 ∧
    -(2 ^ 63) ≤ ((uErrSample.NextW).2).limit ∧
    ((uErrSample.NextW).2).limit < 2 ^ 63 ∧
    mErrSample.HasNext = (mErrSample.err.isSome || mErrSample.xHasNext ||
      mErrSample.yHasNext) ∧
    ((mErrSample.NextW).2).limit ≠ 0 ∧
    -(2 ^ 63) ≤ ((mErrSample.NextW).2).limit ∧
    ((mErrSample.NextW).2).limit < 2 ^ 63 :=
  claim_C10 uErrSample mErrSample (by decide) (by decide) (by decide) (by decide)
